import Mathlib

/-!
# ormGenerate: a shallow embedding of `src/main.cpp`

The program packs up to three grayscale texture maps (ambient occlusion,
roughness, metalness) into the channels of one 3-channel image.

Conventions of the embedding:

* `std::string` is `List Char` (`Str`); `std::string::npos` is `none`.
* `unsigned int` values are natural numbers below `U32`; every arithmetic
  operation of the source on them is reduced modulo `U32`.
* A byte buffer is a `List Nat`; a null pointer is `none`.
* Undefined behaviour (null dereference, access outside a buffer) and a loop
  that does not finish within the given fuel are results of type `Fault`.
* The file system, the stb decoder and encoder, and `malloc` are the fields
  of a `World`.
* Releasing memory (`cleanup`, `free`) changes nothing a run shows and is
  left out.
-/

namespace OrmGenerate

/-- Strings of the program, as lists of characters. -/
abbrev Str := List Char

/-- The modulus of `unsigned int` arithmetic, `2^32`. -/
def U32 : Nat := 4294967296

/-- Multiplication of two `unsigned int`. -/
def mulU32 (a b : Nat) : Nat := (a * b) % U32

/-- Addition of two `unsigned int`. -/
def addU32 (a b : Nat) : Nat := (a + b) % U32

/-- Conversion of an `int` to `unsigned int` (lines 59-61). -/
def toU32 (i : Int) : Nat := (i % 4294967296).toNat

/-- The enum `ImageType` (lines 39-44). -/
inductive ImageType where
  | COLOR
  | AO
  | METALLICITY
  | ROUGHNESS
deriving DecidableEq, Repr

/-- The struct `Image` (lines 46-53); `data = none` is the null pointer. -/
structure Image where
  w : Nat
  h : Nat
  channels : Nat
  data : Option (List Nat)
  fpath : Str
  imageType : ImageType
deriving DecidableEq, Repr

/-- Ways in which a run leaves defined behaviour, or exhausts its fuel. -/
inductive Fault where
  | nullDeref
  | outOfBounds
  | outOfFuel
deriving DecidableEq, Repr

/-- Result of a computation that may fault. -/
inductive Run (α : Type) where
  | done : α → Run α
  | fault : Fault → Run α
deriving DecidableEq, Repr

/-! ## String helpers of the C++ standard library -/

/-- `str.find(pat)`: position of the leftmost occurrence, `none` for `npos`. -/
def find : Str → Str → Option Nat
  | [], pat => if pat.isPrefixOf [] then some 0 else none
  | c :: t, pat =>
    if pat.isPrefixOf (c :: t) then some 0 else (find t pat).map (· + 1)

/-- `str.replace(pos, len, to)` for `pos ≤ str.size()`. -/
def replace (str : Str) (pos len : Nat) (toStr : Str) : Str :=
  str.take pos ++ toStr ++ str.drop (pos + len)

/-- `replaceStr` (lines 71-78): the returned flag and the new value of `str`. -/
def replaceStr (str fromStr toStr : Str) : Bool × Str :=
  match find str fromStr with
  | none => (false, str)
  | some start_pos => (true, replace str start_pos fromStr.length toStr)

/-- `str.find_last_of(c)`: position of the last `c`, `none` for `npos`. -/
def find_last_of (str : Str) (c : Char) : Option Nat :=
  match find str.reverse [c] with
  | none => none
  | some k => some (str.length - 1 - k)

/-- `str.substr(0, n)`, where `n = npos` keeps the whole string. -/
def substr0 (str : Str) (n : Option Nat) : Str :=
  match n with
  | none => str
  | some k => str.take k

/-- `std::filesystem::path(p).filename()` for POSIX paths: the characters
after the last directory separator. -/
def filename (p : Str) : Str :=
  (p.reverse.takeWhile (fun c => c != '/')).reverse

/-- `std::filesystem::path(p).parent_path()` for POSIX paths (no root name,
leading separators form the root directory `/`): a path without a relative
part is returned as it is; otherwise the last element and the separators
before it are removed, keeping the root directory. -/
def parent_path (p : Str) : Str :=
  if p.all (fun c => c == '/') then p
  else
    let upToSep := p.reverse.dropWhile (fun c => c != '/')
    let dir := upToSep.dropWhile (fun c => c == '/')
    if dir.isEmpty && !upToSep.isEmpty then ['/'] else dir.reverse

/-! ## Path derivation (lines 109-132) -/

/-- The four derived paths. -/
structure Paths where
  aoName : Str
  rghName : Str
  metalName : Str
  ormName : Str
deriving DecidableEq, Repr

/-- Lines 109-132 of `main`. -/
def derivePaths (filepath outFormat : Str) : Paths :=
  let baseName := filename filepath
  let dirName := parent_path filepath
  let aoName := (replaceStr baseName "_Color".toList "_AmbientOcclusion".toList).2
  let rghName := (replaceStr baseName "_Color".toList "_Roughness".toList).2
  let metalName := (replaceStr baseName "_Color".toList "_Metalness".toList).2
  let ormName := (replaceStr baseName "_Color".toList "_ORM".toList).2
  let ormName :=
    if outFormat = "jpg".toList then
      substr0 ormName (find_last_of ormName '.') ++ ".jpg".toList
    else
      substr0 ormName (find_last_of ormName '.') ++ ".png".toList
  { aoName := dirName ++ "/".toList ++ aoName
    rghName := dirName ++ "/".toList ++ rghName
    metalName := dirName ++ "/".toList ++ metalName
    ormName := dirName ++ "/".toList ++ ormName }

/-! ## The outside world -/

/-- What `stbi_load` leaves behind: the returned pointer, the values found in
the out-parameters `x`, `y`, `n` afterwards (arbitrary when decoding failed),
and `stbi_failure_reason()`. -/
structure StbiResult where
  data : Option (List Nat)
  x : Int
  y : Int
  n : Int
  reason : Str

/-- The arguments of a call of `stbi_write_png` or `stbi_write_jpg`
(lines 218, 220); `param` is the row stride for PNG and the quality for JPEG. -/
structure EncodeCall where
  png : Bool
  path : Str
  w : Nat
  h : Nat
  comp : Nat
  data : List Nat
  param : Nat
deriving DecidableEq, Repr

/-- The environment of a run. -/
structure World where
  /-- Whether `stat` succeeds on a path (`fileExists`, lines 80-83). -/
  fileExists : Str → Bool
  /-- The decoder. -/
  stbi_load : Str → StbiResult
  /-- Whether `malloc` of that many bytes returns a non-null pointer. -/
  malloc : Nat → Bool
  /-- The return value of the encoder. -/
  stbi_write : EncodeCall → Int
  /-- The size `stat` reports for the written file. -/
  st_size : Str → Nat

/-- What a finished run shows: exit status, lines on standard output, and
the encoder call if one was made. -/
structure Outcome where
  status : Nat
  stdout : List Str
  encoded : Option EncodeCall
deriving DecidableEq, Repr

/-! ## Loading (lines 55-69, 134-144) -/

/-- `loadImage` (lines 55-69): the image and the lines printed. -/
def loadImage (env : World) (fpath : Str) (t : ImageType) : Image × List Str :=
  let r := env.stbi_load fpath
  let img : Image :=
    { w := toU32 r.x, h := toU32 r.y, channels := toU32 r.n, data := r.data,
      fpath := fpath, imageType := t }
  match r.data with
  | none => (img, ["Could not read image: ".toList ++ fpath ++ ", reason: ".toList ++ r.reason])
  | some _ => (img, [])

/-- One `if (fileExists(p)) images.push_back(loadImage(p, t))` step. -/
def loadIfExists (env : World) (fpath : Str) (t : ImageType)
    (acc : List Image × List Str) : List Image × List Str :=
  if env.fileExists fpath then
    (acc.1 ++ [(loadImage env fpath t).1], acc.2 ++ (loadImage env fpath t).2)
  else acc

/-- Lines 134-144: the vector `images` and the lines printed while loading. -/
def loadImages (env : World) (p : Paths) : List Image × List Str :=
  loadIfExists env p.metalName .METALLICITY
    (loadIfExists env p.rghName .ROUGHNESS
      (loadIfExists env p.aoName .AO ([], [])))

/-- An image as a successful `stbi_load` leaves it: `unsigned int` fields and
a non-null buffer of `w*h*channels` bytes. -/
def decoded (img : Image) : Bool :=
  decide (img.w < U32) && decide (img.h < U32) && decide (img.channels < U32) &&
    match img.data with
    | none => false
    | some d => d.length == img.w * img.h * img.channels

/-! ## Validation (lines 146-180) -/

/-- Decimal output of an `unsigned int`. -/
def showNat (n : Nat) : Str := (Nat.repr n).toList

/-- Body of the comparison loop for one image (lines 163-174): the lines it
prints. `ok` is cleared exactly when a line is printed. -/
def mismatchLines (w h n : Nat) (img : Image) : List Str :=
  (if img.w ≠ w then
    ["image ".toList ++ img.fpath ++ " has wrong width: ".toList ++ showNat img.w
      ++ " vs ".toList ++ showNat w] else []) ++
  (if img.h ≠ h then
    ["image ".toList ++ img.fpath ++ " has wrong height: ".toList ++ showNat img.h
      ++ " vs ".toList ++ showNat h] else []) ++
  (if img.channels ≠ n then
    ["image ".toList ++ img.fpath ++ " has wrong channel count: ".toList
      ++ showNat img.channels ++ " vs ".toList ++ showNat n] else [])

/-- The comparison loop (lines 161-175) over `images[1..]`: the final value
of `ok` and the lines printed. -/
def compareLoop (w h n : Nat) : List Image → Bool × List Str → Bool × List Str
  | [], acc => acc
  | img :: rest, (ok, out) =>
    let ok1 := if img.w ≠ w then false else ok
    let ok2 := if img.h ≠ h then false else ok1
    let ok3 := if img.channels ≠ n then false else ok2
    compareLoop w h n rest (ok3, out ++ mismatchLines w h n img)

/-- Result of lines 146-180: either the lines printed before `return 1`,
or the common width, height and channel count. -/
inductive Validation where
  | rejected : List Str → Validation
  | passed : Nat → Nat → Nat → Validation
deriving DecidableEq, Repr

/-- Lines 146-180 of `main`. -/
def validate (images : List Image) : Validation :=
  match images with
  | [] => .rejected ["no images".toList]
  | first :: others =>
    let w := first.w
    let h := first.h
    let n := first.channels
    if n < 1 ∨ n > 3 then
      .rejected ["image channels must be 1, 2, or 3. Got: ".toList ++ showNat n]
    else
      match compareLoop w h n others (true, []) with
      | (false, out) => .rejected out
      | (true, _) => .passed w h n

/-! ## Channel packing (lines 182-214) -/

/-- The `switch` of lines 193-205; `none` is the `continue` of `COLOR`. -/
def channelIndex : ImageType → Option Nat
  | .AO => some 0
  | .ROUGHNESS => some 1
  | .METALLICITY => some 2
  | .COLOR => none

/-- The read `iter.data[i]`. -/
def readByte (data : Option (List Nat)) (i : Nat) : Run Nat :=
  match data with
  | none => .fault .nullDeref
  | some d =>
    match d[i]? with
    | some v => .done v
    | none => .fault .outOfBounds

/-- The write `dest[i] = v` into a buffer of `dest.length` bytes. -/
def writeByte (dest : List Nat) (i v : Nat) : Run (List Nat) :=
  if i < dest.length then .done (dest.set i v) else .fault .outOfBounds

/-- The inner loop, lines 210-212, entered with the current value of `x`. -/
def packRow : Nat → Image → Nat → Nat → Nat → List Nat → Run (List Nat)
  | 0, _, _, _, _, _ => .fault .outOfFuel
  | fuel + 1, iter, index, y, x, dest =>
    if x < iter.w then
      match readByte iter.data (mulU32 iter.channels (addU32 (mulU32 y iter.w) x)) with
      | .fault e => .fault e
      | .done v =>
        match writeByte dest (addU32 (mulU32 3 (addU32 (mulU32 y iter.w) x)) index) v with
        | .fault e => .fault e
        | .done dest1 => packRow fuel iter index y (addU32 x iter.channels) dest1
    else .done dest

/-- The outer loop, lines 208-213, entered with the current value of `y`;
`rowFuel` is the fuel of each inner loop. -/
def packRows (rowFuel : Nat) : Nat → Image → Nat → Nat → List Nat → Run (List Nat)
  | 0, _, _, _, _ => .fault .outOfFuel
  | fuel + 1, iter, index, y, dest =>
    if y < iter.h then
      match packRow rowFuel iter index y 0 dest with
      | .fault e => .fault e
      | .done dest1 => packRows rowFuel fuel iter index (addU32 y 1) dest1
    else .done dest

/-- The loop over `images`, lines 190-214. -/
def packImages (fuel : Nat) : List Image → List Nat → Run (List Nat)
  | [], dest => .done dest
  | iter :: rest, dest =>
    match channelIndex iter.imageType with
    | none => packImages fuel rest dest
    | some index =>
      match packRows fuel fuel iter index 0 dest with
      | .fault e => .fault e
      | .done dest1 => packImages fuel rest dest1

/-- The size passed to `malloc` and `memset` (lines 182, 188): `w*h*3` in
`unsigned int` arithmetic. -/
def compositeSize (w h : Nat) : Nat := mulU32 (mulU32 w h) 3

/-! ## Encoding and exit (lines 216-233), and `main` -/

/-- Lines 216-221: the encoder call that `main` makes. -/
def encodeCall (outFormat ormName : Str) (w h : Nat) (ORM : List Nat) : EncodeCall :=
  if outFormat = "png".toList then
    { png := true, path := ormName, w := w, h := h, comp := 3, data := ORM,
      param := mulU32 w 3 }
  else
    { png := false, path := ormName, w := w, h := h, comp := 3, data := ORM,
      param := 99 }

/-- Lines 223-233: the lines printed after the encoder returned `ret`, and
the exit status. -/
def finish (env : World) (ormName : Str) (w h : Nat) (ret : Int) (call : EncodeCall)
    (out : List Str) : Outcome :=
  if ret = 0 then
    { status := 0
      stdout := out ++ ["failed writing ORM image to ".toList ++ ormName ++ ", ".toList
        ++ (toString ret).toList]
      encoded := some call }
  else
    { status := 0
      stdout := out ++ ["wrote ".toList ++ showNat w ++ "x".toList ++ showNat h
        ++ " ORM file with size: ".toList ++ showNat (env.st_size ormName / 1024 / 1024)
        ++ " MB to: ".toList ++ ormName]
      encoded := some call }

/-- Lines 182-233 of `main`: allocation, packing, encoding and exit, for
images that passed validation with common width `w` and height `h`. -/
def packAndEncode (env : World) (outFormat ormName : Str) (images : List Image)
    (w h : Nat) (out : List Str) (fuel : Nat) : Run Outcome :=
  if env.malloc (compositeSize w h) then
    match packImages fuel images (List.replicate (compositeSize w h) 0) with
    | .fault e => .fault e
    | .done ORM =>
      let call := encodeCall outFormat ormName w h ORM
      .done (finish env ormName w h (env.stbi_write call) call out)
  else
    .done { status := 1, stdout := out ++ ["could not allocate memory".toList],
            encoded := none }

/-- Lines 146-233 of `main`, from the loaded `images` on; `out` holds the
lines printed so far. -/
def mainFromImages (env : World) (outFormat ormName : Str) (images : List Image)
    (out : List Str) (fuel : Nat) : Run Outcome :=
  match validate images with
  | .rejected lines => .done { status := 1, stdout := out ++ lines, encoded := none }
  | .passed w h _ => packAndEncode env outFormat ormName images w h out fuel

/-- Lines printed for a wrong argument count (lines 96-99). -/
def usageLines : List Str :=
  ["Invalid argc. Usage: convertORM path/to/filename.ext format".toList,
   "where:".toList,
   "file.ext is either a jpg or png file".toList,
   "format is the output ORM texture file format, and must be either jpg or png".toList]

/-- The function `main` (lines 94-234); `args` is `argv[1..]`. -/
def main (env : World) (args : List Str) (fuel : Nat) : Run Outcome :=
  match args with
  | [filepath, outFormat] =>
    if outFormat ≠ "jpg".toList ∧ outFormat ≠ "png".toList then
      .done { status := 1, stdout := ["output format must be either jpg or png".toList],
              encoded := none }
    else
      let p := derivePaths filepath outFormat
      let loaded := loadImages env p
      mainFromImages env outFormat p.ormName loaded.1 loaded.2 fuel
  | _ => .done { status := 1, stdout := usageLines, encoded := none }

/-! ## Sample inputs -/

/-- A decoded 2x1 single-channel ambient-occlusion map. -/
def sampleAO : Image :=
  { w := 2, h := 1, channels := 1, data := some [5, 6], fpath := "d/m_AmbientOcclusion.png".toList,
    imageType := .AO }

/-- A decoded 2x1 single-channel roughness map. -/
def sampleRoughness : Image :=
  { w := 2, h := 1, channels := 1, data := some [7, 8], fpath := "d/m_Roughness.png".toList,
    imageType := .ROUGHNESS }

/-- A decoded 2x1 two-channel (gray, alpha) ambient-occlusion map. -/
def sampleGrayAlpha : Image :=
  { w := 2, h := 1, channels := 2, data := some [10, 20, 30, 40],
    fpath := "d/m_AmbientOcclusion.png".toList, imageType := .AO }

/-- The command line `d/m_Color.png png`. -/
def sampleArgs : List Str := ["d/m_Color.png".toList, "png".toList]

/-- A world in which only the roughness sibling exists; it decodes to a 2x1
single-channel image, and the encoder returns `ret`. -/
def roughnessOnlyWorld (ret : Int) : World :=
  { fileExists := fun p => p == "d/m_Roughness.png".toList
    stbi_load := fun _ => { data := some [7, 8], x := 2, y := 1, n := 1, reason := [] }
    malloc := fun _ => true
    stbi_write := fun _ => ret
    st_size := fun _ => 0 }

/-- A world whose ambient-occlusion sibling, when present, fails to decode and
leaves `gx`, `gy`, `gn` in the out-parameters; the roughness sibling, when
present, decodes to a 2x1 single-channel image. -/
def corruptAOWorld (aoPresent rghPresent : Bool) (gx gy gn : Int) : World :=
  { fileExists := fun p =>
      (aoPresent && p == "d/m_AmbientOcclusion.png".toList) ||
      (rghPresent && p == "d/m_Roughness.png".toList)
    stbi_load := fun p =>
      if p == "d/m_Roughness.png".toList then
        { data := some [7, 8], x := 2, y := 1, n := 1, reason := [] }
      else
        { data := none, x := gx, y := gy, n := gn, reason := "unknown image type".toList }
    malloc := fun _ => true
    stbi_write := fun _ => 1
    st_size := fun _ => 0 }

/-- A decoded 40000x40000 single-channel ambient-occlusion map. -/
def largeGray : Image :=
  { w := 40000, h := 40000, channels := 1, data := some (List.replicate 1600000000 0),
    fpath := "d/m_AmbientOcclusion.png".toList, imageType := .AO }

/-- A decoded 2x1 single-channel metalness map. -/
def sampleMetalness : Image :=
  { w := 2, h := 1, channels := 1, data := some [3, 4], fpath := "d/m_Metalness.png".toList,
    imageType := .METALLICITY }

/-- A decoded 3x2 single-channel roughness map. -/
def sampleWideRoughness : Image :=
  { w := 3, h := 2, channels := 1, data := some [1, 2, 3, 4, 5, 6],
    fpath := "d/m_Roughness.png".toList, imageType := .ROUGHNESS }

/-! ## The diagnostics of the comparison loop, as the specification words them -/

/-- The three fields the comparison loop checks. -/
inductive Field where
  | width
  | height
  | channelCount
deriving DecidableEq, Repr

/-- The value of a field in an image. -/
def Field.value : Field → Image → Nat
  | .width, img => img.w
  | .height, img => img.h
  | .channelCount, img => img.channels

/-- The name of a field in a diagnostic line. -/
def Field.label : Field → Str
  | .width => "width".toList
  | .height => "height".toList
  | .channelCount => "channel count".toList

/-- Specification: the pairs (image after the first, field) whose value
differs from the first image, in list order, fields in the order width,
height, channel count. -/
def specMismatchPairs (first : Image) (others : List Image) : List (Image × Field) :=
  others.flatMap (fun img =>
    ([Field.width, Field.height, Field.channelCount].filter
      (fun f => f.value img != f.value first)).map (fun f => (img, f)))

/-- Specification: the diagnostic line of one mismatching pair. -/
def specDiagnostic (first : Image) (p : Image × Field) : Str :=
  "image ".toList ++ p.1.fpath ++ " has wrong ".toList ++ p.2.label ++ ": ".toList
    ++ showNat (p.2.value p.1) ++ " vs ".toList ++ showNat (p.2.value first)

/-! ## Arithmetic without overflow -/

theorem addU32_eq {a b : Nat} (h : a + b < U32) : addU32 a b = a + b := Nat.mod_eq_of_lt h

theorem mulU32_eq {a b : Nat} (h : a * b < U32) : mulU32 a b = a * b := Nat.mod_eq_of_lt h

theorem pixel_lt {W H x y : Nat} (hx : x < W) (hy : y < H) : y * W + x < W * H := by
  have h1 : (y + 1) * W ≤ H * W := Nat.mul_le_mul_right W hy
  rw [Nat.succ_mul] at h1
  rw [Nat.mul_comm W H]
  omega

theorem packRow_spec (iter : Image) (d : List Nat) (index y : Nat)
    (hd : iter.data = some d) (hn1 : 1 ≤ iter.channels) (hn3 : iter.channels ≤ 3)
    (hlen : d.length = iter.w * iter.h * iter.channels)
    (hsz : iter.w * iter.h * 3 < U32) (hi : index < 3) (hy : y < iter.h) :
    ∀ (fuel x : Nat) (dest : List Nat), 0 < fuel → iter.w < fuel + x →
      dest.length = iter.w * iter.h * 3 →
      ∃ dest', packRow fuel iter index y x dest = .done dest' ∧ dest'.length = dest.length ∧
        (∀ k, x + k * iter.channels < iter.w →
          dest'[3 * (y * iter.w + (x + k * iter.channels)) + index]?
            = d[iter.channels * (y * iter.w + (x + k * iter.channels))]?) ∧
        (∀ j, (∀ k, x + k * iter.channels < iter.w →
            j ≠ 3 * (y * iter.w + (x + k * iter.channels)) + index) →
          dest'[j]? = dest[j]?) := by
  intro fuel
  induction fuel with
  | zero => intro x dest h0; omega
  | succ fuel ih =>
    intro x dest _ hfuel hdest
    by_cases hx : x < iter.w
    · have hp : y * iter.w + x < iter.w * iter.h := pixel_lt hx hy
      have hyw : mulU32 y iter.w = y * iter.w := mulU32_eq (by omega)
      have hadd : addU32 (y * iter.w) x = y * iter.w + x := addU32_eq (by omega)
      have hnp : iter.channels * (y * iter.w + x) ≤ 3 * (y * iter.w + x) :=
        Nat.mul_le_mul_right _ hn3
      have hsrc : mulU32 iter.channels (y * iter.w + x) = iter.channels * (y * iter.w + x) :=
        mulU32_eq (by omega)
      have h3p : mulU32 3 (y * iter.w + x) = 3 * (y * iter.w + x) := mulU32_eq (by omega)
      have hdst : addU32 (3 * (y * iter.w + x)) index = 3 * (y * iter.w + x) + index :=
        addU32_eq (by omega)
      have hxn : addU32 x iter.channels = x + iter.channels := by
        apply addU32_eq
        have : iter.w * 1 ≤ iter.w * iter.h := Nat.mul_le_mul_left _ (by omega)
        omega
      have hsrclt : iter.channels * (y * iter.w + x) < d.length := by
        rw [hlen, Nat.mul_comm (iter.w * iter.h)]
        exact Nat.mul_lt_mul_of_pos_left hp hn1
      obtain ⟨dest', hrun, hl, heff, hframe⟩ :=
        ih (x + iter.channels) (dest.set (3 * (y * iter.w + x) + index)
          d[iter.channels * (y * iter.w + x)]) (by omega) (by omega) (by simpa using hdest)
      refine ⟨dest', ?_, ?_, ?_, ?_⟩
      · rw [packRow, if_pos hx, hyw, hadd, hsrc, h3p, hdst, hxn, hd]
        simp only [readByte, List.getElem?_eq_getElem hsrclt, writeByte]
        rw [if_pos (by omega)]
        exact hrun
      · simpa using hl
      · intro k hk
        cases k with
        | zero =>
          simp only [Nat.zero_mul, Nat.add_zero]
          rw [hframe]
          · rw [List.getElem?_set_self (by omega), List.getElem?_eq_getElem hsrclt]
          · intro k _
            have : 0 < iter.channels := hn1
            omega
        | succ k =>
          have e : x + (k + 1) * iter.channels = x + iter.channels + k * iter.channels := by
            rw [Nat.succ_mul]; omega
          rw [e] at hk ⊢
          exact heff k hk
      · intro j hj
        rw [hframe]
        · have h0 := hj 0 (by simpa using hx)
          simp only [Nat.zero_mul, Nat.add_zero] at h0
          rw [List.getElem?_set_ne (Ne.symm h0)]
        · intro k hk
          have e : x + (k + 1) * iter.channels = x + iter.channels + k * iter.channels := by
            rw [Nat.succ_mul]; omega
          have := hj (k + 1) (by rw [e]; exact hk)
          rw [e] at this
          exact this
    · refine ⟨dest, ?_, rfl, ?_, ?_⟩
      · rw [packRow, if_neg hx]
      · intro k hk
        have : x ≤ x + k * iter.channels := Nat.le_add_right _ _
        omega
      · intro j _
        rfl

theorem packRows_spec (iter : Image) (d : List Nat) (index rowFuel : Nat)
    (hd : iter.data = some d) (hn1 : 1 ≤ iter.channels) (hn3 : iter.channels ≤ 3)
    (hlen : d.length = iter.w * iter.h * iter.channels)
    (hsz : iter.w * iter.h * 3 < U32) (hh : iter.h < U32) (hi : index < 3)
    (hrf : iter.w < rowFuel) :
    ∀ (fuel y0 : Nat) (dest : List Nat), 0 < fuel → iter.h < fuel + y0 →
      dest.length = iter.w * iter.h * 3 →
      ∃ dest', packRows rowFuel fuel iter index y0 dest = .done dest' ∧
        dest'.length = dest.length ∧
        (∀ y, y0 ≤ y → y < iter.h → ∀ k, k * iter.channels < iter.w →
          dest'[3 * (y * iter.w + k * iter.channels) + index]?
            = d[iter.channels * (y * iter.w + k * iter.channels)]?) ∧
        (∀ j, (∀ y, y0 ≤ y → y < iter.h → ∀ k, k * iter.channels < iter.w →
            j ≠ 3 * (y * iter.w + k * iter.channels) + index) →
          dest'[j]? = dest[j]?) := by
  intro fuel
  induction fuel with
  | zero => intro y0 dest h0; omega
  | succ fuel ih =>
    intro y0 dest _ hfuel hdest
    by_cases hy : y0 < iter.h
    · obtain ⟨dest1, hrow, hl1, heff1, hframe1⟩ :=
        packRow_spec iter d index y0 hd hn1 hn3 hlen hsz hi hy rowFuel 0 dest
          (by omega) (by omega) hdest
      simp only [Nat.zero_add] at heff1 hframe1
      have hy1 : addU32 y0 1 = y0 + 1 := by
        exact addU32_eq (by omega)
      obtain ⟨dest', hrun, hl, heff, hframe⟩ :=
        ih (y0 + 1) dest1 (by omega) (by omega) (by omega)
      refine ⟨dest', ?_, by omega, ?_, ?_⟩
      · rw [packRows, if_pos hy, hrow]
        simp only [hy1]
        exact hrun
      · intro y hy0 hyh k hk
        by_cases hyy : y = y0
        · subst hyy
          rw [hframe]
          · exact heff1 k hk
          · intro y' hy' _ k' hk'
            have : (y + 1) * iter.w ≤ y' * iter.w := Nat.mul_le_mul_right _ hy'
            rw [Nat.succ_mul] at this
            omega
        · exact heff y (by omega) hyh k hk
      · intro j hj
        rw [hframe]
        · exact hframe1 j (fun k hk => hj y0 (Nat.le_refl _) hy k hk)
        · intro y hy0 hyh k hk
          exact hj y (by omega) hyh k hk
    · refine ⟨dest, ?_, rfl, ?_, ?_⟩
      · rw [packRows, if_neg hy]
      · intro y hy0 hyh
        omega
      · intro j _
        rfl

theorem channelIndex_lt {t : ImageType} {i : Nat} (h : channelIndex t = some i) : i < 3 := by
  cases t <;> simp [channelIndex] at h <;> omega

theorem channelIndex_inj {a b : ImageType} {i : Nat} (ha : channelIndex a = some i)
    (hb : channelIndex b = some i) : a = b := by
  cases a <;> cases b <;> simp [channelIndex] at ha hb <;> first | rfl | omega

theorem decoded_iff (img : Image) :
    decoded img = true ↔ img.w < U32 ∧ img.h < U32 ∧ img.channels < U32 ∧
      ∃ d, img.data = some d ∧ d.length = img.w * img.h * img.channels := by
  unfold decoded
  cases hdat : img.data with
  | none => simp
  | some d => simp [and_assoc]

theorem packImages_spec (W H fuel : Nat) (hsz : W * H * 3 < U32) (hW : W < fuel)
    (hH : H < fuel) :
    ∀ (images : List Image) (dest : List Nat),
      (∀ img ∈ images, img.w = W ∧ img.h = H ∧ 1 ≤ img.channels ∧ img.channels ≤ 3 ∧
        decoded img = true) →
      dest.length = W * H * 3 →
      ∃ dest', packImages fuel images dest = .done dest' ∧ dest'.length = dest.length ∧
        (∀ j, (∀ img ∈ images, ∀ i, channelIndex img.imageType = some i →
            ∀ y, y < H → ∀ k, k * img.channels < W →
              j ≠ 3 * (y * W + k * img.channels) + i) → dest'[j]? = dest[j]?) ∧
        (images.Pairwise (fun a b => a.imageType ≠ b.imageType) →
          ∀ img ∈ images, ∀ i d, channelIndex img.imageType = some i → img.data = some d →
            ∀ y, y < H → ∀ k, k * img.channels < W →
              dest'[3 * (y * W + k * img.channels) + i]?
                = d[img.channels * (y * W + k * img.channels)]?) := by
  intro images
  induction images with
  | nil =>
    intro dest _ _
    exact ⟨dest, rfl, rfl, fun _ _ => rfl, fun _ img himg => by simp at himg⟩
  | cons iter rest ih =>
    intro dest hall hdest
    have hrest : ∀ img ∈ rest, img.w = W ∧ img.h = H ∧ 1 ≤ img.channels ∧
        img.channels ≤ 3 ∧ decoded img = true :=
      fun img himg => hall img (List.mem_cons_of_mem _ himg)
    obtain ⟨hw, hh, hn1, hn3, hdec⟩ := hall iter (List.mem_cons_self _ _)
    cases hidx : channelIndex iter.imageType with
    | none =>
      obtain ⟨dest', hrun, hl, hframe, heff⟩ := ih dest hrest hdest
      refine ⟨dest', ?_, hl, ?_, ?_⟩
      · rw [packImages, hidx]; exact hrun
      · intro j hj
        exact hframe j (fun img himg => hj img (List.mem_cons_of_mem _ himg))
      · intro hpw img himg i d hi
        rcases List.mem_cons.mp himg with rfl | hmem
        · rw [hidx] at hi; cases hi
        · exact heff (List.Pairwise.of_cons hpw) img hmem i d hi
    | some index =>
      obtain ⟨_, hhU, _, d0, hd0, hlen0⟩ := (decoded_iff iter).mp hdec
      subst hw hh
      obtain ⟨dest1, hrows, hl1, heff1, hframe1⟩ :=
        packRows_spec iter d0 index fuel hd0 hn1 hn3 hlen0 hsz hhU (channelIndex_lt hidx) hW
          fuel 0 dest (by omega) (by omega) hdest
      obtain ⟨dest', hrun, hl, hframe, heff⟩ := ih dest1 hrest (by omega)
      refine ⟨dest', ?_, by omega, ?_, ?_⟩
      · rw [packImages, hidx]
        simp only [hrows]
        exact hrun
      · intro j hj
        rw [hframe j (fun img himg => hj img (List.mem_cons_of_mem _ himg))]
        exact hframe1 j (fun y _ hy k hk => hj iter (List.mem_cons_self _ _) index hidx y hy k hk)
      · intro hpw img himg i d hi hd y hy k hk
        rcases List.mem_cons.mp himg with rfl | hmem
        · have hii : index = i := Option.some.inj (hidx.symm.trans hi)
          have hdd : d0 = d := Option.some.inj (hd0.symm.trans hd)
          subst hii hdd
          rw [hframe]
          · exact heff1 y (Nat.zero_le _) hy k hk
          · intro img' himg' i' hi' y' _ k' _
            have hne : img.imageType ≠ img'.imageType := List.rel_of_pairwise_cons hpw himg'
            have hii : i' ≠ index := fun e => hne (channelIndex_inj hidx (e ▸ hi'))
            have := channelIndex_lt hidx
            have := channelIndex_lt hi'
            omega
        · exact heff (List.Pairwise.of_cons hpw) img hmem i d hi hd y hy k hk

theorem compareLoop_fst (w h n : Nat) :
    ∀ (imgs : List Image) (ok : Bool) (out : List Str),
      (compareLoop w h n imgs (ok, out)).1 = true ↔
        ok = true ∧ ∀ img ∈ imgs, img.w = w ∧ img.h = h ∧ img.channels = n := by
  intro imgs
  induction imgs with
  | nil => intro ok out; simp [compareLoop]
  | cons img rest ih =>
    intro ok out
    rw [compareLoop, ih]
    by_cases h1 : img.w = w <;> by_cases h2 : img.h = h <;> by_cases h3 : img.channels = n <;>
      simp [h1, h2, h3]

/-- The condition under which lines 146-180 let the run continue. -/
theorem validate_passed_iff (images : List Image) (w h n : Nat) :
    validate images = .passed w h n ↔
      ∃ first others, images = first :: others ∧ first.w = w ∧ first.h = h ∧
        first.channels = n ∧ 1 ≤ n ∧ n ≤ 3 ∧
        ∀ img ∈ others, img.w = w ∧ img.h = h ∧ img.channels = n := by
  cases images with
  | nil => simp [validate]
  | cons first others =>
    simp only [validate]
    by_cases hn : first.channels < 1 ∨ first.channels > 3
    · rw [if_pos hn]
      constructor
      · intro hc; cases hc
      · rintro ⟨f, o, heq, _, _, hc, h1, h3, _⟩
        cases heq
        omega
    · rw [if_neg hn]
      have hl := compareLoop_fst first.w first.h first.channels others true []
      cases hcl : compareLoop first.w first.h first.channels others (true, []) with
      | mk ok out =>
        rw [hcl] at hl
        cases ok with
        | false =>
          simp only [Bool.false_eq_true, true_and, false_iff] at hl
          constructor
          · intro hc; cases hc
          · rintro ⟨f, o, heq, hw, hh, hc, _, _, hall⟩
            cases heq
            subst hw hh hc
            exact absurd hall hl
        | true =>
          simp only [true_and, true_iff] at hl
          constructor
          · intro hc
            cases hc
            exact ⟨first, others, rfl, rfl, rfl, rfl, by omega, by omega, hl⟩
          · rintro ⟨f, o, heq, hw, hh, hc, _, _, _⟩
            cases heq
            subst hw hh hc
            rfl

theorem validate_passed_all {images : List Image} {w h n : Nat}
    (hv : validate images = .passed w h n) :
    images ≠ [] ∧ 1 ≤ n ∧ n ≤ 3 ∧ ∀ img ∈ images, img.w = w ∧ img.h = h ∧ img.channels = n := by
  obtain ⟨first, others, rfl, hw, hh, hc, h1, h3, hall⟩ := (validate_passed_iff _ _ _ _).mp hv
  refine ⟨by simp, h1, h3, ?_⟩
  intro img himg
  rcases List.mem_cons.mp himg with rfl | hmem
  · exact ⟨hw, hh, hc⟩
  · exact hall img hmem

theorem compositeSize_eq {w h : Nat} (hsz : w * h * 3 < U32) : compositeSize w h = w * h * 3 := by
  unfold compositeSize
  rw [mulU32_eq (a := w) (b := h) (by omega), mulU32_eq hsz]

theorem roles_pairwise {images : List Image}
    (hroles : (images.map Image.imageType).Sublist [.AO, .ROUGHNESS, .METALLICITY]) :
    images.Pairwise (fun a b => a.imageType ≠ b.imageType) := by
  have hnd : (images.map Image.imageType).Nodup := List.Nodup.sublist hroles (by decide)
  exact List.pairwise_map.mp hnd

theorem roles_index {images : List Image}
    (hroles : (images.map Image.imageType).Sublist [.AO, .ROUGHNESS, .METALLICITY])
    {img : Image} (himg : img ∈ images) : ∃ i, channelIndex img.imageType = some i := by
  have hm : img.imageType ∈ [ImageType.AO, .ROUGHNESS, .METALLICITY] :=
    hroles.subset (List.mem_map_of_mem _ himg)
  simp only [List.mem_cons, List.mem_singleton, List.not_mem_nil, or_false] at hm
  rcases hm with h | h | h <;> rw [h] <;> simp [channelIndex]

theorem loadImage_type (env : World) (fpath : Str) (t : ImageType) :
    (loadImage env fpath t).1.imageType = t := by
  cases h : (env.stbi_load fpath).data <;> simp [loadImage, h]

/-- The load step pushes at most one image per role, in the order AO,
Roughness, Metalness. -/
theorem loadImages_roles (env : World) (p : Paths) :
    ((loadImages env p).1.map Image.imageType).Sublist [.AO, .ROUGHNESS, .METALLICITY] := by
  unfold loadImages loadIfExists
  cases env.fileExists p.aoName <;> cases env.fileExists p.rghName <;>
    cases env.fileExists p.metalName <;>
    simp [loadImage_type]

/-- Packing of validated, decoded images into the zero-initialised buffer. -/
theorem pack_validated {images : List Image} {w h n fuel : Nat}
    (hval : validate images = .passed w h n) (hdec : ∀ img ∈ images, decoded img = true)
    (hsz : w * h * 3 < U32) (hfw : w < fuel) (hfh : h < fuel) :
    ∃ ORM, packImages fuel images (List.replicate (compositeSize w h) 0) = .done ORM ∧
      ORM.length = w * h * 3 ∧
      (∀ j, j < w * h * 3 → (∀ img ∈ images, ∀ i, channelIndex img.imageType = some i →
          ∀ y, y < h → ∀ k, k * n < w → j ≠ 3 * (y * w + k * n) + i) → ORM[j]? = some 0) ∧
      (images.Pairwise (fun a b => a.imageType ≠ b.imageType) →
        ∀ img ∈ images, ∀ i d, channelIndex img.imageType = some i → img.data = some d →
          ∀ y, y < h → ∀ k, k * n < w →
            ORM[3 * (y * w + k * n) + i]? = d[n * (y * w + k * n)]?) := by
  obtain ⟨_, h1, h3, hall⟩ := validate_passed_all hval
  have hpre : ∀ img ∈ images, img.w = w ∧ img.h = h ∧ 1 ≤ img.channels ∧
      img.channels ≤ 3 ∧ decoded img = true := by
    intro img himg
    obtain ⟨hw, hh, hc⟩ := hall img himg
    exact ⟨hw, hh, by omega, by omega, hdec img himg⟩
  obtain ⟨ORM, hrun, hl, hframe, heff⟩ :=
    packImages_spec w h fuel hsz hfw hfh images (List.replicate (compositeSize w h) 0) hpre
      (by rw [List.length_replicate, compositeSize_eq hsz])
  rw [List.length_replicate, compositeSize_eq hsz] at hl
  refine ⟨ORM, hrun, hl, ?_, ?_⟩
  · intro j hj hne
    rw [hframe j, List.getElem?_replicate, if_pos (by rw [compositeSize_eq hsz]; exact hj)]
    intro img himg i hi y hy k hk
    rw [(hall img himg).2.2] at hk ⊢
    exact hne img himg i hi y hy k hk
  · intro hpw img himg i d hi hd y hy k hk
    have := heff hpw img himg i d hi hd y hy k
    rw [(hall img himg).2.2] at this
    exact this hk

/-! ## Claims on channel packing -/

/-- C1: for images that pass validation with channel count 1 and common width
`w` and height `h`, `w*h*3` below `2^32`, one image per role, the packing loop
finishes, and for every loaded image the composite bytes at `3*(y*w+x)+i`,
`i` the destination index of its role (AO 0, Roughness 1, Metallicity 2), are
exactly the bytes of that image, whatever other roles are loaded. -/
theorem roundtrip_single_channel (images : List Image) (w h fuel : Nat)
    (hval : validate images = .passed w h 1)
    (hdec : ∀ img ∈ images, decoded img = true)
    (hroles : (images.map Image.imageType).Sublist [.AO, .ROUGHNESS, .METALLICITY])
    (hsz : w * h * 3 < 2 ^ 32) (hfuel : w < fuel ∧ h < fuel) :
    channelIndex .AO = some 0 ∧ channelIndex .ROUGHNESS = some 1 ∧
    channelIndex .METALLICITY = some 2 ∧
    ∃ ORM, packImages fuel images (List.replicate (compositeSize w h) 0) = .done ORM ∧
      ORM.length = w * h * 3 ∧
      ∀ img ∈ images, ∃ i d, channelIndex img.imageType = some i ∧ img.data = some d ∧
        d.length = w * h ∧
        ∀ x y, x < w → y < h → ORM[3 * (y * w + x) + i]? = d[y * w + x]? := by
  have hsz' : w * h * 3 < U32 := by unfold U32; omega
  obtain ⟨ORM, hrun, hl, _, heff⟩ := pack_validated hval hdec hsz' hfuel.1 hfuel.2
  refine ⟨rfl, rfl, rfl, ORM, hrun, hl, ?_⟩
  intro img himg
  obtain ⟨i, hi⟩ := roles_index hroles himg
  obtain ⟨_, _, _, d, hd, hlen⟩ := (decoded_iff img).mp (hdec img himg)
  obtain ⟨hw, hh, hc⟩ := (validate_passed_all hval).2.2.2 img himg
  refine ⟨i, d, hi, hd, by rw [hlen, hw, hh, hc, Nat.mul_one], ?_⟩
  intro x y hx hy
  have := heff (roles_pairwise hroles) img himg i d hi hd y hy x (by omega)
  simpa using this

/-- Witness of C1: an ambient-occlusion and a roughness map of 2x1 pixels. -/
theorem roundtrip_single_channel_witness :
    channelIndex .AO = some 0 ∧ channelIndex .ROUGHNESS = some 1 ∧
    channelIndex .METALLICITY = some 2 ∧
    ∃ ORM, packImages 3 [sampleAO, sampleRoughness] (List.replicate (compositeSize 2 1) 0)
        = .done ORM ∧
      ORM.length = 2 * 1 * 3 ∧
      ∀ img ∈ [sampleAO, sampleRoughness], ∃ i d, channelIndex img.imageType = some i ∧
        img.data = some d ∧ d.length = 2 * 1 ∧
        ∀ x y, x < 2 → y < 1 → ORM[3 * (y * 2 + x) + i]? = d[y * 2 + x]? :=
  roundtrip_single_channel [sampleAO, sampleRoughness] 2 1 3 (by decide) (by decide)
    (by decide) (by norm_num) (by decide)

/-- C2: for validated images of channel count 1 (`w*h*3` below `2^32`), every
composite byte at `3*(y*w+x)+c`, `c` the destination index of a role without
a loaded image, is 0; and when only the Roughness image is loaded, channels 0
and 2 are zero and channel 1 is the source, pixel for pixel. -/
theorem absent_roles_stay_zero (images : List Image) (w h fuel : Nat)
    (hval : validate images = .passed w h 1)
    (hdec : ∀ img ∈ images, decoded img = true)
    (hsz : w * h * 3 < 2 ^ 32) (hfuel : w < fuel ∧ h < fuel) :
    ∃ ORM, packImages fuel images (List.replicate (compositeSize w h) 0) = .done ORM ∧
      (∀ t c, channelIndex t = some c → (∀ img ∈ images, img.imageType ≠ t) →
        ∀ x y, x < w → y < h → ORM[3 * (y * w + x) + c]? = some 0) ∧
      (∀ img, images = [img] → img.imageType = .ROUGHNESS →
        ∃ d, img.data = some d ∧ d.length = w * h ∧
          ∀ x y, x < w → y < h →
            ORM[3 * (y * w + x) + 0]? = some 0 ∧ ORM[3 * (y * w + x) + 2]? = some 0 ∧
            ORM[3 * (y * w + x) + 1]? = d[y * w + x]?) := by
  have hsz' : w * h * 3 < U32 := by unfold U32; omega
  obtain ⟨ORM, hrun, _, hzero, heff⟩ := pack_validated hval hdec hsz' hfuel.1 hfuel.2
  have habsent : ∀ t c, channelIndex t = some c → (∀ img ∈ images, img.imageType ≠ t) →
      ∀ x y, x < w → y < h → ORM[3 * (y * w + x) + c]? = some 0 := by
    intro t c ht hno x y hx hy
    have hc := channelIndex_lt ht
    have hp := pixel_lt hx hy
    apply hzero _ (by omega)
    intro img himg i hi y' _ k _
    have hic : i ≠ c := fun e => hno img himg (channelIndex_inj hi (e ▸ ht))
    have := channelIndex_lt hi
    omega
  refine ⟨ORM, hrun, habsent, ?_⟩
  intro img himg hrole
  subst himg
  obtain ⟨_, _, _, d, hd, hlen⟩ := (decoded_iff img).mp (hdec img (List.mem_singleton_self _))
  obtain ⟨hw, hh, hc⟩ := (validate_passed_all hval).2.2.2 img (List.mem_singleton_self _)
  refine ⟨d, hd, by rw [hlen, hw, hh, hc, Nat.mul_one], ?_⟩
  intro x y hx hy
  have hno : ∀ t, t ≠ ImageType.ROUGHNESS → ∀ img' ∈ [img], img'.imageType ≠ t := by
    intro t ht img' himg'
    rw [List.mem_singleton.mp himg', hrole]
    exact Ne.symm ht
  refine ⟨habsent .AO 0 rfl (hno _ (by decide)) x y hx hy,
    habsent .METALLICITY 2 rfl (hno _ (by decide)) x y hx hy, ?_⟩
  have := heff (List.pairwise_singleton _ _) img (List.mem_singleton_self _) 1 d
    (by rw [hrole]; rfl) hd y hy x (by omega)
  simpa using this

/-- Witness of C2: only the roughness map of 2x1 pixels is loaded. -/
theorem absent_roles_stay_zero_witness :
    ∃ ORM, packImages 3 [sampleRoughness] (List.replicate (compositeSize 2 1) 0) = .done ORM ∧
      (∀ t c, channelIndex t = some c → (∀ img ∈ [sampleRoughness], img.imageType ≠ t) →
        ∀ x y, x < 2 → y < 1 → ORM[3 * (y * 2 + x) + c]? = some 0) ∧
      (∀ img, [sampleRoughness] = [img] → img.imageType = .ROUGHNESS →
        ∃ d, img.data = some d ∧ d.length = 2 * 1 ∧
          ∀ x y, x < 2 → y < 1 →
            ORM[3 * (y * 2 + x) + 0]? = some 0 ∧ ORM[3 * (y * 2 + x) + 2]? = some 0 ∧
            ORM[3 * (y * 2 + x) + 1]? = d[y * 2 + x]?) :=
  absent_roles_stay_zero [sampleRoughness] 2 1 3 (by decide) (by decide) (by norm_num)
    (by decide)

/-- C7 (the code at a two-channel input): a validated 2x1 image with two
channels per pixel is packed only at column 0; the composite byte of pixel
(1,0) stays 0 although the first channel of that pixel is 30. -/
theorem multichannel_skips_columns :
    validate [sampleGrayAlpha] = .passed 2 1 2 ∧ decoded sampleGrayAlpha = true ∧
    packImages 3 [sampleGrayAlpha] (List.replicate (compositeSize 2 1) 0)
      = .done [10, 0, 0, 0, 0, 0] ∧
    [10, 0, 0, 0, 0, 0][3 * (0 * 2 + 1) + 0]? = some 0 ∧
    sampleGrayAlpha.data = some [10, 20, 30, 40] ∧
    [10, 20, 30, 40][2 * (0 * 2 + 1)]? = some 30 := by
  decide

/-! ## Path derivation -/

theorem filename_append {D name : Str} (hname : '/' ∉ name) :
    filename (D ++ '/' :: name) = name := by
  unfold filename
  have hall : ∀ a ∈ name.reverse, (fun c : Char => c != '/') a = true := by
    intro a ha
    have : a ≠ '/' := fun e => hname (e ▸ List.mem_reverse.mp ha)
    simpa using this
  rw [List.reverse_append, List.reverse_cons, List.append_assoc,
    List.takeWhile_append_of_pos hall]
  simp

theorem parent_path_append {D name : Str} (hD : D ≠ []) (hlast : D.getLast? ≠ some '/')
    (hname : '/' ∉ name) : parent_path (D ++ '/' :: name) = D := by
  obtain ⟨c, r, hr⟩ : ∃ c r, D.reverse = c :: r := by
    cases h : D.reverse with
    | nil => exact absurd (List.reverse_eq_nil_iff.mp h) hD
    | cons c r => exact ⟨c, r, rfl⟩
  have hc : c ≠ '/' := by
    intro e
    apply hlast
    rw [← List.head?_reverse, hr, e]
    rfl
  have hcD : c ∈ D := List.mem_reverse.mp (hr ▸ List.mem_cons_self c r)
  have hall : ∀ a ∈ name.reverse, (fun c : Char => c != '/') a = true := by
    intro a ha
    have : a ≠ '/' := fun e => hname (e ▸ List.mem_reverse.mp ha)
    simpa using this
  unfold parent_path
  have hnotall : (D ++ '/' :: name).all (fun c => c == '/') = false := by
    rw [Bool.eq_false_iff]
    intro h
    rw [List.all_eq_true] at h
    have := h c (List.mem_append_left _ hcD)
    simp at this
    exact hc this
  rw [hnotall]
  simp only [Bool.false_eq_true, if_false]
  rw [List.reverse_append, List.reverse_cons, List.append_assoc,
    List.dropWhile_append_of_pos hall, hr]
  simp [List.dropWhile_cons, hc]
  rw [← List.reverse_cons, ← hr, List.reverse_reverse]

theorem find_char {a b : Str} {c : Char} (ha : c ∉ a) :
    find (a ++ c :: b) [c] = some a.length := by
  induction a with
  | nil => simp [find, List.isPrefixOf]
  | cons x a ih =>
    have hx : x ≠ c := fun e => ha (e ▸ List.mem_cons_self x a)
    have ha' : c ∉ a := fun h => ha (List.mem_cons_of_mem _ h)
    simp [find, List.isPrefixOf, ih ha', Ne.symm hx]

theorem find_last_of_append {a b : Str} {c : Char} (hb : c ∉ b) :
    find_last_of (a ++ c :: b) c = some a.length := by
  unfold find_last_of
  have hb' : c ∉ b.reverse := fun h => hb (List.mem_reverse.mp h)
  rw [List.reverse_append, List.reverse_cons, List.append_assoc]
  simp only [List.singleton_append]
  rw [find_char hb']
  simp

theorem replace_middle (a pat b toStr : Str) :
    replace (a ++ pat ++ b) a.length pat.length toStr = a ++ toStr ++ b := by
  have h1 : List.take a.length (a ++ pat ++ b) = a := by
    rw [List.append_assoc]; exact List.take_left _ _
  have h2 : List.drop (a.length + pat.length) (a ++ pat ++ b) = b := by
    rw [← List.length_append]; exact List.drop_left _ _
  rw [replace, h1, h2]

/-- No proper suffix of a string without `_Color` lets `_Color` start early. -/
theorem find_Color (P b : Str) (h : ¬ "_Color".toList <:+: P) :
    find (P ++ "_Color".toList ++ b) "_Color".toList = some P.length := by
  induction P with
  | nil => simp [find, List.isPrefixOf]
  | cons c P ih =>
    have hP : ¬ "_Color".toList <:+: P := fun hi => h (hi.trans (List.suffix_cons c P).isInfix)
    have hnp : ("_Color".toList).isPrefixOf (c :: P ++ "_Color".toList ++ b) = false := by
      rw [Bool.eq_false_iff]
      intro hpre
      have hpre' := hpre
      rw [ List.isPrefixOf_iff_prefix] at hpre
      by_cases hlen : 6 ≤ (c :: P).length
      · apply h
        have h1 : c :: P <+: c :: P ++ "_Color".toList ++ b := by
          rw [List.append_assoc]; exact List.prefix_append _ _
        exact (List.prefix_of_prefix_length_le hpre h1 hlen).isInfix
      · rcases P with _ | ⟨p1, _ | ⟨p2, _ | ⟨p3, _ | ⟨p4, _ | ⟨p5, P⟩⟩⟩⟩⟩
        all_goals first
          | (simp only [List.length_cons] at hlen; omega)
          | (simp [List.isPrefixOf] at hpre')
    rw [List.cons_append, List.cons_append, find, ← List.cons_append, ← List.cons_append, hnp]
    simp only [Bool.false_eq_true, if_false]
    rw [ih hP]
    simp

theorem replaceStr_Color (P b toStr : Str) (h : ¬ "_Color".toList <:+: P) :
    replaceStr (P ++ "_Color".toList ++ b) "_Color".toList toStr = (true, P ++ toStr ++ b) := by
  rw [replaceStr, find_Color P b h]
  simp only
  rw [replace_middle]

theorem orm_extension (P E ext : Str) (hE : '.' ∉ E) :
    substr0 (P ++ "_ORM".toList ++ '.' :: E) (find_last_of (P ++ "_ORM".toList ++ '.' :: E) '.')
      ++ '.' :: ext = P ++ "_ORM".toList ++ '.' :: ext := by
  rw [find_last_of_append hE, substr0, List.take_left]

/-- C3 (amended): for every non-empty directory `D` that does not end in `/`,
every stem `P` without `/` and without `_Color`, every extension `E` without
`.` and `/`, and every format `F` in {jpg, png}, the input `D/P_Color.E` gives
the siblings `D/P_AmbientOcclusion.E`, `D/P_Roughness.E`, `D/P_Metalness.E`
and the output `D/P_ORM.F`. -/
theorem derivePaths_convention (D P E F : Str) (hD : D ≠ [])
    (hlast : D.getLast? ≠ some '/') (hP1 : '/' ∉ P) (hP2 : ¬ "_Color".toList <:+: P)
    (hE1 : '.' ∉ E) (hE2 : '/' ∉ E) (hF : F = "jpg".toList ∨ F = "png".toList) :
    derivePaths (D ++ "/".toList ++ P ++ "_Color".toList ++ ".".toList ++ E) F =
      { aoName := D ++ "/".toList ++ P ++ "_AmbientOcclusion".toList ++ ".".toList ++ E
        rghName := D ++ "/".toList ++ P ++ "_Roughness".toList ++ ".".toList ++ E
        metalName := D ++ "/".toList ++ P ++ "_Metalness".toList ++ ".".toList ++ E
        ormName := D ++ "/".toList ++ P ++ "_ORM".toList ++ ".".toList ++ F } := by
  have hname : '/' ∉ P ++ "_Color".toList ++ '.' :: E := by
    intro hm
    rw [List.mem_append, List.mem_append, List.mem_cons] at hm
    rcases hm with (hm | hm) | hm | hm
    · exact hP1 hm
    · revert hm; decide
    · revert hm; decide
    · exact hE2 hm
  have hpath : D ++ "/".toList ++ P ++ "_Color".toList ++ ".".toList ++ E
      = D ++ '/' :: (P ++ "_Color".toList ++ '.' :: E) := by
    have h1 : "/".toList = ['/'] := rfl
    have h2 : ".".toList = ['.'] := rfl
    rw [h1, h2]
    simp only [List.append_assoc, List.singleton_append, List.cons_append, List.nil_append]
  have hjpg : ".jpg".toList = '.' :: "jpg".toList := rfl
  have hpng : ".png".toList = '.' :: "png".toList := rfl
  have hne : "png".toList ≠ "jpg".toList := by decide
  have hsep : ∀ (X Y : Str), D ++ "/".toList ++ (P ++ X ++ '.' :: Y)
      = D ++ "/".toList ++ P ++ X ++ ".".toList ++ Y := by
    intro X Y
    have h2 : ".".toList = ['.'] := rfl
    rw [h2]
    simp only [List.append_assoc, List.singleton_append, List.cons_append, List.nil_append]
  rw [hpath]
  unfold derivePaths
  simp only [filename_append hname, parent_path_append hD hlast hname,
    replaceStr_Color _ _ _ hP2]
  rcases hF with rfl | rfl
  · rw [if_pos rfl, hjpg, orm_extension _ _ _ hE1]
    simp only [hsep]
  · rw [if_neg hne, hpng, orm_extension _ _ _ hE1]
    simp only [hsep]

/-- Witness of C3: `dir/Mat_Color.jpg` with `png`. -/
theorem derivePaths_convention_witness :
    derivePaths ("dir".toList ++ "/".toList ++ "Mat".toList ++ "_Color".toList ++ ".".toList
        ++ "jpg".toList) "png".toList =
      { aoName := "dir".toList ++ "/".toList ++ "Mat".toList ++ "_AmbientOcclusion".toList
          ++ ".".toList ++ "jpg".toList
        rghName := "dir".toList ++ "/".toList ++ "Mat".toList ++ "_Roughness".toList
          ++ ".".toList ++ "jpg".toList
        metalName := "dir".toList ++ "/".toList ++ "Mat".toList ++ "_Metalness".toList
          ++ ".".toList ++ "jpg".toList
        ormName := "dir".toList ++ "/".toList ++ "Mat".toList ++ "_ORM".toList ++ ".".toList
          ++ "png".toList } :=
  derivePaths_convention "dir".toList "Mat".toList "jpg".toList "png".toList (by decide)
    (by decide) (by decide) (by decide) (by decide) (by decide) (by decide)

/-- C3 as stated fails for a directory written with a trailing separator:
for `D = dir/` the input is `dir//Mat_Color.jpg`, `parent_path` gives `dir`,
and the sibling is `dir/Mat_AmbientOcclusion.jpg`, not `D/Mat_AmbientOcclusion.jpg`. -/
theorem derivePaths_trailing_separator :
    "dir/".toList ≠ [] ∧ '/' ∉ "Mat".toList ∧ ¬ "_Color".toList <:+: "Mat".toList ∧
    '.' ∉ "jpg".toList ∧ '/' ∉ "jpg".toList ∧
    (derivePaths ("dir/".toList ++ "/".toList ++ "Mat".toList ++ "_Color".toList ++ ".".toList
        ++ "jpg".toList) "png".toList).aoName = "dir/Mat_AmbientOcclusion.jpg".toList ∧
    "dir/Mat_AmbientOcclusion.jpg".toList ≠
      "dir/".toList ++ "/".toList ++ "Mat".toList ++ "_AmbientOcclusion".toList ++ ".".toList
        ++ "jpg".toList := by
  decide

/-- C8 (the code at a bare file name): for `Mat_Color.jpg` the parent
directory of the input is empty (the current directory), `dirName + "/"`
makes every derived path start at the root, and the parent directory of each
derived path is `/`. -/
theorem bare_name_derives_root_paths :
    parent_path "Mat_Color.jpg".toList = [] ∧
    derivePaths "Mat_Color.jpg".toList "png".toList =
      { aoName := "/Mat_AmbientOcclusion.jpg".toList, rghName := "/Mat_Roughness.jpg".toList,
        metalName := "/Mat_Metalness.jpg".toList, ormName := "/Mat_ORM.png".toList } ∧
    parent_path "/Mat_AmbientOcclusion.jpg".toList = "/".toList ∧
    parent_path "/Mat_Roughness.jpg".toList = "/".toList ∧
    parent_path "/Mat_Metalness.jpg".toList = "/".toList ∧
    parent_path "/Mat_ORM.png".toList = "/".toList := by
  decide

/-! ## Buffer length -/

theorem packRow_length (iter : Image) (index y : Nat) :
    ∀ (fuel x : Nat) (dest dest' : List Nat),
      packRow fuel iter index y x dest = .done dest' → dest'.length = dest.length := by
  intro fuel
  induction fuel with
  | zero => intro x dest dest' h; simp [packRow] at h
  | succ fuel ih =>
    intro x dest dest' h
    rw [packRow] at h
    split at h
    · split at h
      · cases h
      · split at h
        · cases h
        · rename_i v _ dest1 hw
          unfold writeByte at hw
          split at hw
          · cases hw
            rw [ih _ _ _ h, List.length_set]
          · cases hw
    · cases h
      rfl

theorem packRows_length (iter : Image) (index rowFuel : Nat) :
    ∀ (fuel y : Nat) (dest dest' : List Nat),
      packRows rowFuel fuel iter index y dest = .done dest' → dest'.length = dest.length := by
  intro fuel
  induction fuel with
  | zero => intro y dest dest' h; simp [packRows] at h
  | succ fuel ih =>
    intro y dest dest' h
    rw [packRows] at h
    split at h
    · split at h
      · cases h
      · rename_i dest1 hrow
        rw [ih _ _ _ h, packRow_length _ _ _ _ _ _ _ hrow]
    · cases h
      rfl

theorem packImages_length (fuel : Nat) :
    ∀ (images : List Image) (dest dest' : List Nat),
      packImages fuel images dest = .done dest' → dest'.length = dest.length := by
  intro images
  induction images with
  | nil => intro dest dest' h; rw [packImages] at h; cases h; rfl
  | cons iter rest ih =>
    intro dest dest' h
    rw [packImages] at h
    split at h
    · exact ih _ _ h
    · split at h
      · cases h
      · rename_i dest1 hrows
        rw [ih _ _ h, packRows_length _ _ _ _ _ _ _ hrows]

/-! ## Claims on the run as a whole -/

/-- A validated, decoded image list whose allocation succeeds runs through
packing and reaches the encoder. -/
theorem mainFromImages_validated (env : World) (outFormat ormName : Str)
    {images : List Image} (out : List Str) {w h n fuel : Nat}
    (hval : validate images = .passed w h n) (hdec : ∀ img ∈ images, decoded img = true)
    (hsz : w * h * 3 < U32) (hmalloc : env.malloc (compositeSize w h) = true)
    (hfw : w < fuel) (hfh : h < fuel) :
    ∃ ORM, packImages fuel images (List.replicate (compositeSize w h) 0) = .done ORM ∧
      ORM.length = w * h * 3 ∧
      mainFromImages env outFormat ormName images out fuel =
        .done (finish env ormName w h (env.stbi_write (encodeCall outFormat ormName w h ORM))
          (encodeCall outFormat ormName w h ORM) out) := by
  obtain ⟨ORM, hrun, hl, _, _⟩ := pack_validated hval hdec hsz hfw hfh
  refine ⟨ORM, hrun, hl, ?_⟩
  simp only [mainFromImages, hval, packAndEncode, hmalloc, if_true, hrun]

theorem finish_encoded (env : World) (ormName : Str) (w h : Nat) (ret : Int)
    (call : EncodeCall) (out : List Str) :
    (finish env ormName w h ret call out).encoded = some call := by
  unfold finish
  split <;> rfl

theorem finish_status (env : World) (ormName : Str) (w h : Nat) (ret : Int)
    (call : EncodeCall) (out : List Str) :
    (finish env ormName w h ret call out).status = 0 := by
  unfold finish
  split <;> rfl

theorem encodeCall_fields (outFormat ormName : Str) (w h : Nat) (ORM : List Nat) :
    (encodeCall outFormat ormName w h ORM).w = w ∧
    (encodeCall outFormat ormName w h ORM).h = h ∧
    (encodeCall outFormat ormName w h ORM).comp = 3 ∧
    (encodeCall outFormat ormName w h ORM).data = ORM ∧
    (encodeCall outFormat ormName w h ORM).path = ormName ∧
    (outFormat = "png".toList → (encodeCall outFormat ormName w h ORM).png = true ∧
      (encodeCall outFormat ormName w h ORM).param = mulU32 w 3) ∧
    (outFormat ≠ "png".toList → (encodeCall outFormat ormName w h ORM).png = false ∧
      (encodeCall outFormat ormName w h ORM).param = 99) := by
  unfold encodeCall
  split
  · rename_i hf
    exact ⟨rfl, rfl, rfl, rfl, rfl, fun _ => ⟨rfl, rfl⟩, fun hne => absurd hf hne⟩
  · rename_i hf
    exact ⟨rfl, rfl, rfl, rfl, rfl, fun he => absurd he hf, fun _ => ⟨rfl, rfl⟩⟩

/-- C4: the run continues past validation exactly when the image list is
non-empty, the first image has 1 to 3 channels, and every other image has the
width, height and channel count of the first; it then goes on to allocation
and packing, and in every other case it exits with status 1 without an
encoder call. -/
theorem validation_exact (env : World) (outFormat ormName : Str) (images : List Image)
    (out : List Str) (fuel : Nat) :
    ((∃ w h n, validate images = .passed w h n) ↔
      ∃ first others, images = first :: others ∧ 1 ≤ first.channels ∧ first.channels ≤ 3 ∧
        ∀ img ∈ others, img.w = first.w ∧ img.h = first.h ∧
          img.channels = first.channels) ∧
    (∀ w h n, validate images = .passed w h n →
      mainFromImages env outFormat ormName images out fuel
        = packAndEncode env outFormat ormName images w h out fuel) ∧
    ((¬ ∃ w h n, validate images = .passed w h n) →
      ∃ lines, mainFromImages env outFormat ormName images out fuel
        = .done { status := 1, stdout := out ++ lines, encoded := none }) := by
  refine ⟨?_, ?_, ?_⟩
  · constructor
    · rintro ⟨w, h, n, hv⟩
      obtain ⟨first, others, rfl, hw, hh, hc, h1, h3, hall⟩ :=
        (validate_passed_iff _ _ _ _).mp hv
      subst hw hh hc
      exact ⟨first, others, rfl, h1, h3, hall⟩
    · rintro ⟨first, others, rfl, h1, h3, hall⟩
      exact ⟨first.w, first.h, first.channels,
        (validate_passed_iff _ _ _ _).mpr ⟨first, others, rfl, rfl, rfl, rfl, h1, h3, hall⟩⟩
  · intro w h n hv
    simp only [mainFromImages, hv]
  · intro hno
    cases hv : validate images with
    | rejected lines => exact ⟨lines, by simp only [mainFromImages, hv]⟩
    | passed w h n => exact absurd ⟨w, h, n, hv⟩ hno

/-- Encoder arguments when nothing overflows: for validated, decoded images
with `w*3` and `w*h*3` below `2^32` whose buffer allocation succeeds, the run
calls the encoder with the width and height of every loaded image, 3
components, a buffer of `w*h*3` bytes and the derived output path; the row
stride is `w*3` for PNG and the quality is 99 for JPEG. -/
theorem output_geometry (env : World) (outFormat ormName : Str) (images : List Image)
    (out : List Str) (w h n fuel : Nat)
    (hval : validate images = .passed w h n) (hdec : ∀ img ∈ images, decoded img = true)
    (hsz : w * h * 3 < 2 ^ 32) (hw3 : w * 3 < 2 ^ 32)
    (hmalloc : env.malloc (compositeSize w h) = true) (hfuel : w < fuel ∧ h < fuel) :
    ∃ o call, mainFromImages env outFormat ormName images out fuel = .done o ∧
      o.encoded = some call ∧ call.w = w ∧ call.h = h ∧
      (∀ img ∈ images, call.w = img.w ∧ call.h = img.h) ∧
      call.comp = 3 ∧ call.data.length = w * h * 3 ∧ call.path = ormName ∧
      (outFormat = "png".toList → call.png = true ∧ call.param = w * 3) ∧
      (outFormat = "jpg".toList → call.png = false ∧ call.param = 99) := by
  have hsz' : w * h * 3 < U32 := by unfold U32; omega
  have hw3' : w * 3 < U32 := by unfold U32; omega
  obtain ⟨ORM, _, hl, hrun⟩ :=
    mainFromImages_validated env outFormat ormName out hval hdec hsz' hmalloc hfuel.1 hfuel.2
  have hall := (validate_passed_all hval).2.2.2
  obtain ⟨cw, ch, cc, cd, cp, cpng, cjpg⟩ := encodeCall_fields outFormat ormName w h ORM
  refine ⟨_, encodeCall outFormat ormName w h ORM, hrun, finish_encoded _ _ _ _ _ _ _,
    cw, ch, ?_, cc, by rw [cd, hl], cp, ?_, ?_⟩
  · intro img himg
    rw [cw, ch]
    exact ⟨(hall img himg).1.symm, (hall img himg).2.1.symm⟩
  · intro hf
    rw [(cpng hf).2, mulU32_eq hw3']
    exact ⟨(cpng hf).1, rfl⟩
  · intro hf
    exact cjpg (by rw [hf]; decide)

/-- The roughness map alone, written as PNG, reaches the encoder with a 2x1
image of 3 components in 6 bytes and row stride 6. -/
theorem output_geometry_witness :
    ∃ o call, mainFromImages (roughnessOnlyWorld 1) "png".toList "d/m_ORM.png".toList
        [sampleRoughness] [] 3 = .done o ∧
      o.encoded = some call ∧ call.w = 2 ∧ call.h = 1 ∧
      (∀ img ∈ [sampleRoughness], call.w = img.w ∧ call.h = img.h) ∧
      call.comp = 3 ∧ call.data.length = 2 * 1 * 3 ∧ call.path = "d/m_ORM.png".toList ∧
      ("png".toList = "png".toList → call.png = true ∧ call.param = 2 * 3) ∧
      ("png".toList = "jpg".toList → call.png = false ∧ call.param = 99) :=
  output_geometry (roughnessOnlyWorld 1) "png".toList "d/m_ORM.png".toList [sampleRoughness]
    [] 2 1 1 3 (by decide) (by decide) (by norm_num) (by norm_num) (by decide) (by decide)

/-- C10 (the code at a 40000x40000 single-channel image): the image is
decoded and passes validation, `w*h*3` is 4800000000, the size that `malloc`
gets, computed in `unsigned int`, is 505032704, and no run hands the encoder
a buffer of `w*h*3` bytes. -/
theorem composite_size_wraps :
    validate [largeGray] = .passed 40000 40000 1 ∧ decoded largeGray = true ∧
    compositeSize 40000 40000 = 505032704 ∧
    ¬ ∃ (env : World) (outFormat ormName : Str) (out : List Str) (fuel : Nat) (o : Outcome)
        (call : EncodeCall),
      mainFromImages env outFormat ormName [largeGray] out fuel = .done o ∧
        o.encoded = some call ∧ call.data.length = 40000 * 40000 * 3 := by
  have hvd : ∀ dat : Option (List Nat),
      validate [{ w := 40000, h := 40000, channels := 1, data := dat,
                  fpath := "d/m_AmbientOcclusion.png".toList, imageType := .AO }]
        = .passed 40000 40000 1 := by
    intro dat
    simp [validate, compareLoop]
  have hv : validate [largeGray] = .passed 40000 40000 1 := hvd _
  have hc : compositeSize 40000 40000 = 505032704 := by
    norm_num [compositeSize, mulU32, U32]
  refine ⟨hv, ?_, hc, ?_⟩
  · rw [decoded_iff]
    refine ⟨?_, ?_, ?_, List.replicate 1600000000 0, rfl, ?_⟩
    · show 40000 < U32
      norm_num [U32]
    · show 40000 < U32
      norm_num [U32]
    · show 1 < U32
      norm_num [U32]
    · rw [List.length_replicate]
      show 1600000000 = 40000 * 40000 * 1
      norm_num
  · rintro ⟨env, outFormat, ormName, out, fuel, o, call, hrun, henc, hlen⟩
    simp only [mainFromImages, hv, packAndEncode] at hrun
    split at hrun
    · split at hrun
      · cases hrun
      · rename_i ORM hpack
        have hl := packImages_length _ _ _ _ hpack
        rw [List.length_replicate, hc] at hl
        cases hrun
        rw [finish_encoded] at henc
        cases henc
        rw [(encodeCall_fields outFormat ormName 40000 40000 ORM).2.2.2.1, hl] at hlen
        omega
    · cases hrun
      cases henc

/-- C5 (the code at an encoder failure): only the roughness map is loaded,
validation passes, the encoder returns 0; the run prints the failure line and
still exits with status 0. -/
theorem encode_failure_exits_zero :
    ∃ o, main (roughnessOnlyWorld 0) sampleArgs 3 = .done o ∧ o.status = 0 ∧
      o.encoded = some (encodeCall "png".toList "d/m_ORM.png".toList 2 1 [0, 7, 0, 0, 8, 0]) ∧
      o.stdout = ["failed writing ORM image to d/m_ORM.png, 0".toList] := by
  refine ⟨_, rfl, ?_, ?_, ?_⟩ <;> decide

/-- C6 (the code at a decode failure): when the only existing sibling fails
to decode and the out-parameters hold 1, 1, 1, the image is pushed all the
same, validation passes and the pixel loop reads through the null pointer;
with the file missing the run exits 1 with `no images`. With a good roughness
map next to it and 0, 0, 0 left in the out-parameters the run exits 1, while
with the file missing it writes the output and exits 0. -/
theorem decode_failure_not_absence :
    main (corruptAOWorld true false 1 1 1) sampleArgs 3 = .fault .nullDeref ∧
    main (corruptAOWorld false false 1 1 1) sampleArgs 3
      = .done { status := 1, stdout := ["no images".toList], encoded := none } ∧
    (∃ o, main (corruptAOWorld true true 0 0 0) sampleArgs 3 = .done o ∧ o.status = 1 ∧
      o.encoded = none) ∧
    (∃ o, main (corruptAOWorld false true 0 0 0) sampleArgs 3 = .done o ∧ o.status = 0 ∧
      o.encoded = some (encodeCall "png".toList "d/m_ORM.png".toList 2 1 [0, 7, 0, 0, 8, 0])) := by
  refine ⟨by decide, by decide, ⟨_, rfl, by decide, by decide⟩, ⟨_, rfl, by decide, by decide⟩⟩

/-- Where the switch of lines 193-205 sends each role: every loaded
ambient-occlusion image is written at byte offset 0 of each sampled pixel
`(k*n, y)`, every roughness image at byte offset 1 and every metallicity
image at byte offset 2. -/
theorem channel_offsets (images : List Image) (w h n fuel : Nat)
    (hval : validate images = .passed w h n)
    (hdec : ∀ img ∈ images, decoded img = true)
    (hroles : (images.map Image.imageType).Sublist [.AO, .ROUGHNESS, .METALLICITY])
    (hsz : w * h * 3 < 2 ^ 32) (hfuel : w < fuel ∧ h < fuel) :
    ∃ ORM, packImages fuel images (List.replicate (compositeSize w h) 0) = .done ORM ∧
      ∀ img ∈ images, ∃ d, img.data = some d ∧ ∀ y k, y < h → k * n < w →
        (img.imageType = .AO →
          ORM[3 * (y * w + k * n) + 0]? = d[n * (y * w + k * n)]?) ∧
        (img.imageType = .ROUGHNESS →
          ORM[3 * (y * w + k * n) + 1]? = d[n * (y * w + k * n)]?) ∧
        (img.imageType = .METALLICITY →
          ORM[3 * (y * w + k * n) + 2]? = d[n * (y * w + k * n)]?) := by
  have hsz' : w * h * 3 < U32 := by unfold U32; omega
  obtain ⟨ORM, hrun, _, _, heff⟩ := pack_validated hval hdec hsz' hfuel.1 hfuel.2
  refine ⟨ORM, hrun, ?_⟩
  intro img himg
  obtain ⟨_, _, _, d, hd, _⟩ := (decoded_iff img).mp (hdec img himg)
  refine ⟨d, hd, ?_⟩
  intro y k hy hk
  have key := fun i hi => heff (roles_pairwise hroles) img himg i d hi hd y hy k hk
  refine ⟨fun ht => key 0 (by rw [ht]; rfl), fun ht => key 1 (by rw [ht]; rfl),
    fun ht => key 2 (by rw [ht]; rfl)⟩

/-- The byte offsets of an ambient-occlusion and a roughness map of 2x1
pixels packed together. -/
theorem channel_offsets_witness :
    ∃ ORM, packImages 3 [sampleAO, sampleRoughness] (List.replicate (compositeSize 2 1) 0)
        = .done ORM ∧
      ∀ img ∈ [sampleAO, sampleRoughness], ∃ d, img.data = some d ∧
        ∀ y k, y < 1 → k * 1 < 2 →
          (img.imageType = .AO →
            ORM[3 * (y * 2 + k * 1) + 0]? = d[1 * (y * 2 + k * 1)]?) ∧
          (img.imageType = .ROUGHNESS →
            ORM[3 * (y * 2 + k * 1) + 1]? = d[1 * (y * 2 + k * 1)]?) ∧
          (img.imageType = .METALLICITY →
            ORM[3 * (y * 2 + k * 1) + 2]? = d[1 * (y * 2 + k * 1)]?) :=
  channel_offsets [sampleAO, sampleRoughness] 2 1 1 3 (by decide) (by decide) (by decide)
    (by norm_num) (by decide)

/-- C9 (the code at a roughness map and at a metalness map): the switch sends
Roughness to index 1 and Metallicity to index 2; the roughness map with bytes
7, 8 lands at byte offset 1 of each pixel (green) and byte offset 2 stays 0,
and the metalness map with bytes 3, 4 lands at byte offset 2 of each pixel
(blue) and byte offset 1 stays 0, the reverse of the header comment. -/
theorem roughness_is_not_blue :
    channelIndex .ROUGHNESS = some 1 ∧ channelIndex .METALLICITY = some 2 ∧
    sampleRoughness.data = some [7, 8] ∧
    packImages 3 [sampleRoughness] (List.replicate (compositeSize 2 1) 0)
      = .done [0, 7, 0, 0, 8, 0] ∧
    [0, 7, 0, 0, 8, 0][3 * 0 + 2]? ≠ some 7 ∧ [0, 7, 0, 0, 8, 0][3 * 1 + 2]? ≠ some 8 ∧
    sampleMetalness.data = some [3, 4] ∧
    packImages 3 [sampleMetalness] (List.replicate (compositeSize 2 1) 0)
      = .done [0, 0, 3, 0, 0, 4] ∧
    [0, 0, 3, 0, 0, 4][3 * 0 + 1]? ≠ some 3 ∧ [0, 0, 3, 0, 0, 4][3 * 1 + 1]? ≠ some 4 := by
  decide

/-! ## The diagnostics of the comparison loop -/

theorem compareLoop_snd (w h n : Nat) :
    ∀ (imgs : List Image) (ok : Bool) (out : List Str),
      (compareLoop w h n imgs (ok, out)).2 = out ++ imgs.flatMap (mismatchLines w h n) := by
  intro imgs
  induction imgs with
  | nil => intro ok out; simp [compareLoop]
  | cons img rest ih =>
    intro ok out
    rw [compareLoop, ih]
    simp [List.flatMap_cons, List.append_assoc]

theorem mismatchLines_spec (first img : Image) :
    mismatchLines first.w first.h first.channels img =
      (([Field.width, Field.height, Field.channelCount].filter
        (fun f => f.value img != f.value first)).map (fun f => (img, f))).map
        (specDiagnostic first) := by
  unfold mismatchLines
  by_cases h1 : img.w = first.w <;> by_cases h2 : img.h = first.h <;>
    by_cases h3 : img.channels = first.channels <;>
    simp [List.filter_cons, Field.value, Field.label, specDiagnostic, showNat, h1, h2, h3]

theorem compareLoop_lines (first : Image) (others : List Image) :
    (compareLoop first.w first.h first.channels others (true, [])).2 =
      (specMismatchPairs first others).map (specDiagnostic first) := by
  rw [compareLoop_snd, List.nil_append]
  unfold specMismatchPairs
  induction others with
  | nil => rfl
  | cons img rest ih =>
    rw [List.flatMap_cons, List.flatMap_cons, List.map_append, ih, mismatchLines_spec]

theorem specMismatchPairs_eq_nil (first : Image) (others : List Image) :
    specMismatchPairs first others = [] ↔
      ∀ img ∈ others, img.w = first.w ∧ img.h = first.h ∧ img.channels = first.channels := by
  unfold specMismatchPairs
  induction others with
  | nil => simp
  | cons img rest ih =>
    rw [List.flatMap_cons, List.append_eq_nil, ih]
    simp only [List.mem_cons, forall_eq_or_imp]
    apply and_congr_left'
    by_cases h1 : img.w = first.w <;> by_cases h2 : img.h = first.h <;>
      by_cases h3 : img.channels = first.channels <;>
      simp [List.filter_cons, Field.value, h1, h2, h3]

theorem validate_cons (first : Image) (others : List Image) (h1 : 1 ≤ first.channels)
    (h3 : first.channels ≤ 3) :
    validate (first :: others) =
      if specMismatchPairs first others = [] then .passed first.w first.h first.channels
      else .rejected ((specMismatchPairs first others).map (specDiagnostic first)) := by
  have hl := compareLoop_lines first others
  have hf := compareLoop_fst first.w first.h first.channels others true []
  rw [← specMismatchPairs_eq_nil] at hf
  simp only [validate]
  rw [if_neg (by omega)]
  cases hcl : compareLoop first.w first.h first.channels others (true, []) with
  | mk ok lines =>
    rw [hcl] at hl hf
    simp only at hl hf
    cases ok with
    | false =>
      simp only [Bool.false_eq_true, true_and, false_iff] at hf
      rw [if_neg hf, ← hl]
    | true =>
      simp only [true_and, true_iff] at hf
      rw [if_pos hf]

/-- C11: for a non-empty image list whose first image has 1 to 3 channels, the
comparison loop prints exactly one line per pair (later image, field) whose
value differs from the first image, in list order; when there is such a pair
the run prints all these lines and then exits with status 1 without an
encoder call, and when there is none validation passes. -/
theorem all_mismatches_reported (env : World) (outFormat ormName : Str) (first : Image)
    (others : List Image) (out : List Str) (fuel : Nat)
    (h1 : 1 ≤ first.channels) (h3 : first.channels ≤ 3) :
    (compareLoop first.w first.h first.channels others (true, [])).2
      = (specMismatchPairs first others).map (specDiagnostic first) ∧
    (specMismatchPairs first others ≠ [] →
      mainFromImages env outFormat ormName (first :: others) out fuel =
        .done { status := 1
                stdout := out ++ (specMismatchPairs first others).map (specDiagnostic first)
                encoded := none }) ∧
    (specMismatchPairs first others = [] →
      validate (first :: others) = .passed first.w first.h first.channels) := by
  refine ⟨compareLoop_lines first others, ?_, ?_⟩
  · intro hne
    simp only [mainFromImages, validate_cons first others h1 h3, if_neg hne]
  · intro he
    rw [validate_cons first others h1 h3, if_pos he]

/-- Witness of C11: a 2x1 ambient-occlusion map and a 3x2 roughness map give
two lines, one for the width and one for the height. -/
theorem all_mismatches_reported_witness :
    1 ≤ sampleAO.channels ∧ sampleAO.channels ≤ 3 ∧
    specMismatchPairs sampleAO [sampleWideRoughness] ≠ [] ∧
    (specMismatchPairs sampleAO [sampleWideRoughness]).map (specDiagnostic sampleAO)
      = ["image d/m_Roughness.png has wrong width: 3 vs 2".toList,
         "image d/m_Roughness.png has wrong height: 2 vs 1".toList] ∧
    mainFromImages (roughnessOnlyWorld 1) "png".toList "d/m_ORM.png".toList
        (sampleAO :: [sampleWideRoughness]) [] 3 =
      .done { status := 1
              stdout := [] ++ (specMismatchPairs sampleAO [sampleWideRoughness]).map
                (specDiagnostic sampleAO)
              encoded := none } :=
  ⟨by decide, by decide, by decide, by decide,
    (all_mismatches_reported (roughnessOnlyWorld 1) "png".toList "d/m_ORM.png".toList
      sampleAO [sampleWideRoughness] [] 3 (by decide) (by decide)).2.1 (by decide)⟩

/-! ## Leftmost replacement and the output path -/

theorem find_some {pat : Str} :
    ∀ (str : Str) (k : Nat), find str pat = some k →
      ∃ a b, str = a ++ pat ++ b ∧ a.length = k ∧
        ∀ a' b', str = a' ++ pat ++ b' → k ≤ a'.length := by
  intro str
  induction str with
  | nil =>
    intro k h
    rw [find] at h
    split at h
    · rename_i hp
      cases h
      have hp' := List.isPrefixOf_iff_prefix.mp hp
      have : pat = [] := List.prefix_nil.mp hp'
      exact ⟨[], [], by simp [this], rfl, fun _ _ _ => Nat.zero_le _⟩
    · cases h
  | cons c t ih =>
    intro k h
    rw [find] at h
    split at h
    · rename_i hp
      cases h
      obtain ⟨b, hb⟩ := List.isPrefixOf_iff_prefix.mp hp
      exact ⟨[], b, by simp [hb], rfl, fun _ _ _ => Nat.zero_le _⟩
    · rename_i hp
      cases hf : find t pat with
      | none => rw [hf] at h; cases h
      | some k' =>
        rw [hf] at h
        simp only [Option.map_some'] at h
        cases h
        obtain ⟨a, b, hab, hlen, hmin⟩ := ih k' hf
        refine ⟨c :: a, b, by simp [hab], by simp [hlen], ?_⟩
        intro a' b' he
        cases a' with
        | nil =>
          exfalso
          apply hp
          rw [ List.isPrefixOf_iff_prefix]
          exact ⟨b', by simpa using he.symm⟩
        | cons c' a'' =>
          simp only [List.cons_append, List.cons.injEq] at he
          have := hmin a'' b' he.2
          simp only [List.length_cons]
          omega

theorem find_none {pat : Str} :
    ∀ (str : Str), find str pat = none → ¬ pat <:+: str := by
  intro str
  induction str with
  | nil =>
    intro h hin
    rw [find] at h
    split at h
    · cases h
    · rename_i hp
      apply hp
      rw [ List.isPrefixOf_iff_prefix]
      have : pat = [] := List.infix_nil.mp hin
      rw [this]
  | cons c t ih =>
    intro h hin
    rw [find] at h
    split at h
    · cases h
    · rename_i hp
      cases hf : find t pat with
      | some k' => rw [hf] at h; cases h
      | none =>
        obtain ⟨a', b', he⟩ := hin
        cases a' with
        | nil =>
          apply hp
          rw [ List.isPrefixOf_iff_prefix]
          exact ⟨b', by simpa using he⟩
        | cons c' a'' =>
          simp only [List.cons_append, List.cons.injEq] at he
          exact ih hf ⟨a'', b', he.2⟩

theorem find_of_infix {pat str : Str} (h : pat <:+: str) : ∃ k, find str pat = some k := by
  cases hf : find str pat with
  | none => exact absurd h (find_none str hf)
  | some k => exact ⟨k, rfl⟩

theorem replaceStr_of_find {str pat a b : Str} {k : Nat} (hf : find str pat = some k)
    (hs : str = a ++ pat ++ b) (hk : a.length = k) (toStr : Str) :
    replaceStr str pat toStr = (true, a ++ toStr ++ b) := by
  rw [replaceStr, hf]
  simp only
  rw [hs, ← hk, replace_middle]

theorem replaceStr_none {str pat : Str} (h : ¬ pat <:+: str) (toStr : Str) :
    replaceStr str pat toStr = (false, str) := by
  cases hf : find str pat with
  | none => rw [replaceStr, hf]
  | some k =>
    obtain ⟨a, b, hs, _, _⟩ := find_some str k hf
    exact absurd ⟨a, b, hs.symm⟩ h

/-- C13: when `fromStr` does not occur in `str`, `replaceStr` returns false and
leaves `str` as it is, so a file name without `_Color` gives three sibling
names equal to it; otherwise it returns true and `str = a ++ fromStr ++ b`
becomes `a ++ toStr ++ b`, where no occurrence of `fromStr` starts before
position `|a|` and `b` is kept as it is. -/
theorem replaceStr_leftmost (str fromStr toStr filepath outFormat : Str) :
    (¬ fromStr <:+: str → replaceStr str fromStr toStr = (false, str)) ∧
    (fromStr <:+: str → ∃ a b, str = a ++ fromStr ++ b ∧
      (∀ a' b', str = a' ++ fromStr ++ b' → a.length ≤ a'.length) ∧
      replaceStr str fromStr toStr = (true, a ++ toStr ++ b)) ∧
    (¬ "_Color".toList <:+: filename filepath →
      (derivePaths filepath outFormat).aoName
        = parent_path filepath ++ "/".toList ++ filename filepath ∧
      (derivePaths filepath outFormat).rghName
        = parent_path filepath ++ "/".toList ++ filename filepath ∧
      (derivePaths filepath outFormat).metalName
        = parent_path filepath ++ "/".toList ++ filename filepath) := by
  refine ⟨fun h => replaceStr_none h toStr, ?_, ?_⟩
  · intro h
    obtain ⟨k, hf⟩ := find_of_infix h
    obtain ⟨a, b, hs, hk, hmin⟩ := find_some str k hf
    exact ⟨a, b, hs, fun a' b' he => hk ▸ hmin a' b' he, replaceStr_of_find hf hs hk toStr⟩
  · intro h
    simp only [derivePaths, replaceStr_none h]
    exact ⟨trivial, trivial, trivial⟩

theorem substr0_find_last_of (s : Str) (c : Char) :
    ∃ m, substr0 s (find_last_of s c) = s.take m := by
  cases h : find_last_of s c with
  | none => exact ⟨s.length, by rw [substr0, List.take_length]⟩
  | some k => exact ⟨k, by rw [substr0]⟩

theorem ext_length {F : Str} (hF : F = "jpg".toList ∨ F = "png".toList) : F.length = 3 := by
  rcases hF with rfl | rfl <;> rfl

/-- A cut of `a ++ "_ORM" ++ b` followed by an extension is none of the three
sibling names made from the same `a` and `b`. -/
theorem orm_ne_sibling (a b X F : Str) (m : Nat) (hF : F.length = 3)
    (hX : X = "_AmbientOcclusion".toList ∨ X = "_Roughness".toList ∨ X = "_Metalness".toList) :
    (a ++ "_ORM".toList ++ b).take m ++ '.' :: F ≠ a ++ X ++ b := by
  intro he
  have hXl : 10 ≤ X.length := by
    rcases hX with rfl | rfl | rfl <;> decide
  by_cases hm : a.length ≤ m
  · rw [List.append_assoc, List.take_append_eq_append_take, List.take_of_length_le hm,
      List.append_assoc, List.append_assoc, List.append_cancel_left_eq] at he
    have hO : "_ORM".toList = ['_', 'O', 'R', 'M'] := rfl
    rw [hO] at he
    rcases hX with rfl | rfl | rfl
    · have hA : "_AmbientOcclusion".toList = '_' :: 'A' :: "mbientOcclusion".toList := rfl
      rw [hA] at he
      rcases hk : m - a.length with _ | _ | k <;> rw [hk] at he <;> simp at he
    · have hA : "_Roughness".toList = '_' :: 'R' :: "oughness".toList := rfl
      rw [hA] at he
      rcases hk : m - a.length with _ | _ | k <;> rw [hk] at he <;> simp at he
    · have hA : "_Metalness".toList = '_' :: 'M' :: "etalness".toList := rfl
      rw [hA] at he
      rcases hk : m - a.length with _ | _ | k <;> rw [hk] at he <;> simp at he
  · have hl := congrArg List.length he
    simp only [List.length_append, List.length_take, List.length_cons] at hl
    omega

theorem derivePaths_ormName (filepath F : Str) (hF : F = "jpg".toList ∨ F = "png".toList) :
    (derivePaths filepath F).ormName = parent_path filepath ++ "/".toList ++
      (substr0 (replaceStr (filename filepath) "_Color".toList "_ORM".toList).2
        (find_last_of (replaceStr (filename filepath) "_Color".toList "_ORM".toList).2 '.')
        ++ '.' :: F) := by
  have hjpg : ".jpg".toList = '.' :: "jpg".toList := rfl
  have hpng : ".png".toList = '.' :: "png".toList := rfl
  have hne : "png".toList ≠ "jpg".toList := by decide
  rcases hF with rfl | rfl
  · simp only [derivePaths, if_pos, hjpg]
  · simp only [derivePaths, if_neg hne, hpng]

/-- C15 (amended): for every input path whose file name contains `_Color`, or
does not end in `.` followed by the format, and every format in {jpg, png},
the derived output path differs from each of the three derived sibling
paths. -/
theorem output_differs_from_siblings (filepath F : Str)
    (hF : F = "jpg".toList ∨ F = "png".toList)
    (hname : "_Color".toList <:+: filename filepath ∨ ¬ ('.' :: F) <:+ filename filepath) :
    (derivePaths filepath F).ormName ≠ (derivePaths filepath F).aoName ∧
    (derivePaths filepath F).ormName ≠ (derivePaths filepath F).rghName ∧
    (derivePaths filepath F).ormName ≠ (derivePaths filepath F).metalName := by
  have hsib : ∀ X : Str,
      (X = "_AmbientOcclusion".toList ∨ X = "_Roughness".toList ∨ X = "_Metalness".toList) →
      (derivePaths filepath F).ormName ≠ parent_path filepath ++ "/".toList ++
        (replaceStr (filename filepath) "_Color".toList X).2 := by
    intro X hX he
    rw [derivePaths_ormName filepath F hF, List.append_cancel_left_eq] at he
    obtain ⟨m, hm⟩ := substr0_find_last_of
      (replaceStr (filename filepath) "_Color".toList "_ORM".toList).2 '.'
    rw [hm] at he
    by_cases hc : "_Color".toList <:+: filename filepath
    · obtain ⟨k, hf⟩ := find_of_infix hc
      obtain ⟨a, b, hs, hk, _⟩ := find_some _ k hf
      rw [replaceStr_of_find hf hs hk, replaceStr_of_find hf hs hk] at he
      exact orm_ne_sibling a b X F m (ext_length hF) hX he
    · rw [replaceStr_none hc, replaceStr_none hc] at he
      rcases hname with h | h
      · exact hc h
      · apply h
        exact ⟨List.take m (filename filepath), he⟩
  exact ⟨hsib _ (Or.inl rfl), hsib _ (Or.inr (Or.inl rfl)), hsib _ (Or.inr (Or.inr rfl))⟩

/-- Witness of C15: `dir/Mat_Color.jpg` written as PNG. -/
theorem output_differs_from_siblings_witness :
    (derivePaths "dir/Mat_Color.jpg".toList "png".toList).ormName
      ≠ (derivePaths "dir/Mat_Color.jpg".toList "png".toList).aoName ∧
    (derivePaths "dir/Mat_Color.jpg".toList "png".toList).ormName
      ≠ (derivePaths "dir/Mat_Color.jpg".toList "png".toList).rghName ∧
    (derivePaths "dir/Mat_Color.jpg".toList "png".toList).ormName
      ≠ (derivePaths "dir/Mat_Color.jpg".toList "png".toList).metalName :=
  output_differs_from_siblings "dir/Mat_Color.jpg".toList "png".toList (by decide)
    (by decide)

/-- C15 as stated fails for `dir/x.png` written as PNG: the file name has no
`_Color`, the three sibling paths are the input itself, and the output path
is the same `dir/x.png`. -/
theorem output_overwrites_input :
    derivePaths "dir/x.png".toList "png".toList =
      { aoName := "dir/x.png".toList, rghName := "dir/x.png".toList,
        metalName := "dir/x.png".toList, ormName := "dir/x.png".toList } ∧
    (derivePaths "dir/x.png".toList "png".toList).ormName
      = (derivePaths "dir/x.png".toList "png".toList).aoName := by
  decide

/-! ## Column stride and buffer bounds -/

theorem pixel_unique {w x y x' y' : Nat} (hx : x < w) (hx' : x' < w)
    (he : y * w + x = y' * w + x') : y = y' ∧ x = x' := by
  rcases Nat.lt_trichotomy y y' with h | h | h
  · have h1 : (y + 1) * w ≤ y' * w := Nat.mul_le_mul_right w h
    rw [Nat.succ_mul] at h1
    omega
  · subst h
    exact ⟨rfl, by omega⟩
  · have h1 : (y' + 1) * w ≤ y * w := Nat.mul_le_mul_right w h
    rw [Nat.succ_mul] at h1
    omega

/-- C12: a validated, decoded image with 2 or 3 channels, packed alone into
the zero-initialised buffer (`w*h*3` below `2^32`), leaves at `3*(y*w+x)+i`
the source byte at `n*(y*w+x)` when `x` is a multiple of `n`, and 0 when it
is not. -/
theorem column_stride (img : Image) (w h n i fuel : Nat)
    (hval : validate [img] = .passed w h n) (_hn : n = 2 ∨ n = 3)
    (hdec : decoded img = true) (hidx : channelIndex img.imageType = some i)
    (hsz : w * h * 3 < 2 ^ 32) (hfuel : w < fuel ∧ h < fuel) :
    ∃ ORM d, packImages fuel [img] (List.replicate (compositeSize w h) 0) = .done ORM ∧
      img.data = some d ∧ d.length = w * h * n ∧
      ∀ x y, x < w → y < h →
        (n ∣ x → ORM[3 * (y * w + x) + i]? = d[n * (y * w + x)]?) ∧
        (¬ n ∣ x → ORM[3 * (y * w + x) + i]? = some 0) := by
  have hsz' : w * h * 3 < U32 := by unfold U32; omega
  have hdec' : ∀ im ∈ [img], decoded im = true := by
    intro im him
    rw [List.mem_singleton.mp him]
    exact hdec
  obtain ⟨ORM, hrun, _, hzero, heff⟩ := pack_validated hval hdec' hsz' hfuel.1 hfuel.2
  obtain ⟨_, _, _, d, hd, hlen⟩ := (decoded_iff img).mp hdec
  obtain ⟨hw, hh, hc⟩ := (validate_passed_all hval).2.2.2 img (List.mem_singleton_self _)
  refine ⟨ORM, d, hrun, hd, by rw [hlen, hw, hh, hc], ?_⟩
  intro x y hx hy
  constructor
  · rintro ⟨k, rfl⟩
    have := heff (List.pairwise_singleton _ _) img (List.mem_singleton_self _) i d hidx hd
      y hy k (by rw [Nat.mul_comm]; exact hx)
    rw [Nat.mul_comm k n] at this
    exact this
  · intro hnd
    have hp := pixel_lt hx hy
    have hi := channelIndex_lt hidx
    apply hzero _ (by omega)
    intro im him i' hi' y' _ k hk
    rw [List.mem_singleton.mp him, hidx] at hi'
    cases hi'
    intro he
    have he' : y * w + x = y' * w + k * n := by omega
    have := (pixel_unique hx hk he').2
    exact hnd ⟨k, by rw [this, Nat.mul_comm]⟩

/-- Witness of C12: the 2x1 gray-alpha map. -/
theorem column_stride_witness :
    ∃ ORM d, packImages 3 [sampleGrayAlpha] (List.replicate (compositeSize 2 1) 0)
        = .done ORM ∧
      sampleGrayAlpha.data = some d ∧ d.length = 2 * 1 * 2 ∧
      ∀ x y, x < 2 → y < 1 →
        (2 ∣ x → ORM[3 * (y * 2 + x) + 0]? = d[2 * (y * 2 + x)]?) ∧
        (¬ 2 ∣ x → ORM[3 * (y * 2 + x) + 0]? = some 0) :=
  column_stride sampleGrayAlpha 2 1 2 0 3 (by decide) (by decide) (by decide) (by decide)
    (by norm_num) (by decide)

theorem packRow_first_write_outside (iter : Image) (index y : Nat) (dest : List Nat)
    (hw : 0 < iter.w)
    (hdst : dest.length ≤ addU32 (mulU32 3 (addU32 (mulU32 y iter.w) 0)) index) :
    ∀ (fuel : Nat) (dest' : List Nat), packRow fuel iter index y 0 dest ≠ .done dest' := by
  intro fuel dest' h
  cases fuel with
  | zero => simp [packRow] at h
  | succ fuel =>
    rw [packRow, if_pos hw] at h
    split at h
    · cases h
    · unfold writeByte at h
      rw [if_neg (by omega)] at h
      cases h

theorem packRows_done_row (iter : Image) (index rowFuel : Nat) (hh : iter.h < U32) :
    ∀ (fuel y0 : Nat) (dest dest' : List Nat),
      packRows rowFuel fuel iter index y0 dest = .done dest' →
      ∀ y, y0 ≤ y → y < iter.h →
        ∃ d1 d2, d1.length = dest.length ∧ packRow rowFuel iter index y 0 d1 = .done d2 := by
  intro fuel
  induction fuel with
  | zero => intro y0 dest dest' h; simp [packRows] at h
  | succ fuel ih =>
    intro y0 dest dest' h y hy0 hy
    rw [packRows, if_pos (by omega)] at h
    split at h
    · cases h
    · rename_i dest1 hrow
      by_cases hyy : y = y0
      · subst hyy
        exact ⟨dest, dest1, rfl, hrow⟩
      · rw [addU32_eq (by omega)] at h
        obtain ⟨d1, d2, hl, hr⟩ := ih (y0 + 1) dest1 dest' h y (by omega) hy
        exact ⟨d1, d2, by rw [hl, packRow_length _ _ _ _ _ _ _ hrow], hr⟩

theorem largeGray_validated : validate [largeGray] = .passed 40000 40000 1 := by
  have hvd : ∀ dat : Option (List Nat),
      validate [{ w := 40000, h := 40000, channels := 1, data := dat,
                  fpath := "d/m_AmbientOcclusion.png".toList, imageType := .AO }]
        = .passed 40000 40000 1 := by
    intro dat
    simp [validate, compareLoop]
  exact hvd _

theorem largeGray_decoded : decoded largeGray = true := by
  rw [decoded_iff]
  refine ⟨?_, ?_, ?_, List.replicate 1600000000 0, rfl, ?_⟩
  · show 40000 < U32
    norm_num [U32]
  · show 40000 < U32
    norm_num [U32]
  · show 1 < U32
    norm_num [U32]
  · rw [List.length_replicate]
    show 1600000000 = 40000 * 40000 * 1
    norm_num

/-- C14 (the code at a 40000x40000 single-channel image): the image passes
validation, the allocated size `w*h*3` wraps to 505032704, the write for
pixel (0, 4209) goes to index 505080000, and no run of the packing loop
finishes without leaving the buffer. -/
theorem large_image_writes_outside :
    validate [largeGray] = .passed 40000 40000 1 ∧ decoded largeGray = true ∧
    compositeSize 40000 40000 = 505032704 ∧
    addU32 (mulU32 3 (addU32 (mulU32 4209 40000) 0)) 0 = 505080000 ∧
    ¬ ∃ (fuel : Nat) (ORM : List Nat),
      packImages fuel [largeGray] (List.replicate (compositeSize 40000 40000) 0)
        = .done ORM := by
  have hc : compositeSize 40000 40000 = 505032704 := by
    norm_num [compositeSize, mulU32, U32]
  have hidx : addU32 (mulU32 3 (addU32 (mulU32 4209 40000) 0)) 0 = 505080000 := by
    norm_num [addU32, mulU32, U32]
  refine ⟨largeGray_validated, largeGray_decoded, hc, hidx, ?_⟩
  rintro ⟨fuel, ORM, h⟩
  have hw : largeGray.w = 40000 := rfl
  have hh : largeGray.h = 40000 := rfl
  have ht : channelIndex largeGray.imageType = some 0 := rfl
  rw [packImages] at h
  simp only [ht] at h
  split at h
  · cases h
  · rename_i dest1 hrows
    obtain ⟨d1, d2, hl, hr⟩ :=
      packRows_done_row largeGray 0 fuel (by rw [hh]; norm_num [U32]) fuel 0 _ _ hrows 4209
        (Nat.zero_le _) (by rw [hh]; norm_num)
    rw [List.length_replicate, hc] at hl
    exact packRow_first_write_outside largeGray 0 4209 d1 (by rw [hw]; norm_num)
      (by rw [hw, hidx, hl]; norm_num) fuel d2 hr

end OrmGenerate
